import Mathlib

/-!
# FeatureAngle: gradient direction of a 7x7 patch

A shallow embedding of `FeatureAngle.h` (komrad36/FeatureAngle).

* `fastAtan2` is embedded over an arbitrary linear ordered field: every
  finite binary32 value is a rational number, and the float operations
  `+ - * /` and the comparisons are read as the exact field operations
  (rounding, overflow to infinity and NaN are not part of this model).
  The decimal literals of the source are taken at their written value.
* An `__m128i` register used through the `epi16` intrinsics is eight
  signed 16-bit lanes; every lane operation wraps modulo `2^16`.
* The image is a list of bytes; `image + off` is the byte offset `off`
  (an integer), and reading outside the list has no result.
-/

namespace FeatureAngle

/-! ## Section 1: fastAtan2 (source lines 37-56) -/

/-- The constant `PI = 3.1415927f` of the source. -/
def PI {α : Type} [LinearOrderedField α] : α := 3.1415927

/-- The constant `FLT_MIN` of `<cfloat>`: the smallest positive normal
binary32 value, `2^-126`. -/
def FLT_MIN {α : Type} [LinearOrderedField α] : α := 1 / 2 ^ 126

/-- The function `fastAtan2(y, x)` of the source, with `fabs` as `|.|`. -/
def fastAtan2 {α : Type} [LinearOrderedField α] (y x : α) : α :=
  let ax := |x|
  let ay := |y|
  let a : α :=
    if ax ≥ ay then
      let c := ay / (ax + FLT_MIN)
      let cc := c * c
      (((-0.0443265555479 * cc + 0.1555786518) * cc - 0.325808397) * cc + 0.9997878412) * c
    else
      let c := ax / (ay + FLT_MIN)
      let cc := c * c
      PI * 0.5 - (((-0.0443265555479 * cc + 0.1555786518) * cc - 0.325808397) * cc + 0.9997878412) * c
  let a := if x < 0 then PI - a else a
  let a := if y < 0 then -a else a
  a

/-- The odd degree-7 polynomial that both branches of `fastAtan2` evaluate
at the ratio `c` (Horner form in `cc = c*c`, times `c`). -/
def atanPoly {α : Type} [LinearOrderedField α] (c : α) : α :=
  let cc := c * c
  (((-0.0443265555479 * cc + 0.1555786518) * cc - 0.325808397) * cc + 0.9997878412) * c

/-- The base angle `a` of `fastAtan2` before the quadrant correction
(source lines 40-52). -/
def baseAngle {α : Type} [LinearOrderedField α] (y x : α) : α :=
  if |x| ≥ |y| then atanPoly (|y| / (|x| + FLT_MIN))
  else PI * 0.5 - atanPoly (|x| / (|y| + FLT_MIN))

/-- The derivative of `atanPoly`. -/
def atanPolyDeriv {α : Type} [LinearOrderedField α] (c : α) : α :=
  -(7 * 0.0443265555479) * c ^ 6 + 5 * 0.1555786518 * c ^ 4 - 3 * 0.325808397 * c ^ 2
    + 0.9997878412

/-! ## Section 2: the SSE intrinsics used by featureAngle -/

/-- Reduction of an integer to the signed 16-bit range (two's complement
wrap-around). -/
def wrap16 (z : Int) : Int := (z + 32768) % 65536 - 32768

/-- Reduction of an integer to the signed 32-bit range. -/
def wrap32 (z : Int) : Int := (z + 2147483648) % 4294967296 - 2147483648

/-- An `__m128i` register seen as eight signed 16-bit lanes, lane 0 being
the least significant. -/
structure M128i where
  e0 : Int
  e1 : Int
  e2 : Int
  e3 : Int
  e4 : Int
  e5 : Int
  e6 : Int
  e7 : Int
  deriving DecidableEq, Repr

/-- Lane `i` of a register (lanes are numbered 0..7). -/
def M128i.lane (v : M128i) (i : Nat) : Int :=
  match i with
  | 0 => v.e0
  | 1 => v.e1
  | 2 => v.e2
  | 3 => v.e3
  | 4 => v.e4
  | 5 => v.e5
  | 6 => v.e6
  | _ => v.e7

/-- The register whose lane `i` is `f i`. -/
def M128i.ofLanes (f : Nat → Int) : M128i :=
  ⟨f 0, f 1, f 2, f 3, f 4, f 5, f 6, f 7⟩

/-- The intrinsic `_mm_setr_epi16(e0, ..., e7)`: lane 0 first. -/
def _mm_setr_epi16 (e0 e1 e2 e3 e4 e5 e6 e7 : Int) : M128i :=
  ⟨wrap16 e0, wrap16 e1, wrap16 e2, wrap16 e3, wrap16 e4, wrap16 e5, wrap16 e6, wrap16 e7⟩

/-- The intrinsic `_mm_setzero_si128()`. -/
def _mm_setzero_si128 : M128i := ⟨0, 0, 0, 0, 0, 0, 0, 0⟩

/-- The intrinsic `_mm_add_epi16`: lane-wise wrapping addition. -/
def _mm_add_epi16 (a b : M128i) : M128i :=
  M128i.ofLanes fun i => wrap16 (a.lane i + b.lane i)

/-- The intrinsic `_mm_sub_epi16`: lane-wise wrapping subtraction. -/
def _mm_sub_epi16 (a b : M128i) : M128i :=
  M128i.ofLanes fun i => wrap16 (a.lane i - b.lane i)

/-- The intrinsic `_mm_mullo_epi16`: the low 16 bits of each lane product. -/
def _mm_mullo_epi16 (a b : M128i) : M128i :=
  M128i.ofLanes fun i => wrap16 (a.lane i * b.lane i)

/-- The intrinsic `_mm_shuffle_epi32(a, imm8)`: 32-bit element `d` of the
result is element `(imm8 >> 2d) & 3` of `a`; a 32-bit element is a pair of
adjacent 16-bit lanes. -/
def _mm_shuffle_epi32 (a : M128i) (imm8 : Nat) : M128i :=
  M128i.ofLanes fun i => a.lane (2 * (imm8 / 4 ^ (i / 2) % 4) + i % 2)

/-- The intrinsic `_mm_shufflelo_epi16(a, imm8)`: lane `i < 4` of the result
is lane `(imm8 >> 2i) & 3` of `a`; the four high lanes are copied. -/
def _mm_shufflelo_epi16 (a : M128i) (imm8 : Nat) : M128i :=
  M128i.ofLanes fun i => if i < 4 then a.lane (imm8 / 4 ^ i % 4) else a.lane i

/-- The intrinsic `_mm_hadd_epi16(a, b)`: sums of adjacent lane pairs, those
of `a` in the low half and those of `b` in the high half. -/
def _mm_hadd_epi16 (a b : M128i) : M128i :=
  ⟨wrap16 (a.e0 + a.e1), wrap16 (a.e2 + a.e3), wrap16 (a.e4 + a.e5), wrap16 (a.e6 + a.e7),
   wrap16 (b.e0 + b.e1), wrap16 (b.e2 + b.e3), wrap16 (b.e4 + b.e5), wrap16 (b.e6 + b.e7)⟩

/-- The intrinsic `_mm_cvtsi128_si32`: the low 32 bits of the register, as a
signed 32-bit integer (lanes 0 and 1, lane 0 in the low half). -/
def _mm_cvtsi128_si32 (a : M128i) : Int :=
  wrap32 (a.e0 % 65536 + 65536 * (a.e1 % 65536))

/-- The conversion `static_cast<int16_t>` of a 32-bit integer. -/
def toInt16 (z : Int) : Int := wrap16 z

/-- The image buffer: a list of 8-bit samples. -/
abbrev Image := List (Fin 256)

/-- One byte of the buffer at integer offset `off` from its start; there is
no result when the offset is outside the buffer. -/
def readByte (image : Image) (off : Int) : Option (Fin 256) :=
  if 0 ≤ off then image.get? off.toNat else none

/-- The eight bytes `p, p+1, ..., p+7` that `_mm_loadl_epi64` reads (the low
64 bits of the register; the high 64 bits are zero and are never used). -/
structure Low64 where
  b0 : Fin 256
  b1 : Fin 256
  b2 : Fin 256
  b3 : Fin 256
  b4 : Fin 256
  b5 : Fin 256
  b6 : Fin 256
  b7 : Fin 256
  deriving DecidableEq, Repr

/-- The intrinsic `_mm_loadl_epi64` applied to the address `image + p`: it
reads eight consecutive bytes. -/
def _mm_loadl_epi64 (image : Image) (p : Int) : Option Low64 := do
  let b0 ← readByte image p
  let b1 ← readByte image (p + 1)
  let b2 ← readByte image (p + 2)
  let b3 ← readByte image (p + 3)
  let b4 ← readByte image (p + 4)
  let b5 ← readByte image (p + 5)
  let b6 ← readByte image (p + 6)
  let b7 ← readByte image (p + 7)
  pure ⟨b0, b1, b2, b3, b4, b5, b6, b7⟩

/-- The intrinsic `_mm_cvtepu8_epi16`: the eight low bytes, zero-extended to
16-bit lanes. -/
def _mm_cvtepu8_epi16 (a : Low64) : M128i :=
  ⟨a.b0.val, a.b1.val, a.b2.val, a.b3.val, a.b4.val, a.b5.val, a.b6.val, a.b7.val⟩

/-! ## Section 3: the weight tables and featureAngle (source lines 68-126) -/

def xwt0 : M128i := _mm_setr_epi16 0 0 (-1) 0 1 0 0 0
def xwt1 : M128i := _mm_setr_epi16 0 (-2) (-1) 0 1 2 0 0
def xwt2 : M128i := _mm_setr_epi16 (-3) (-2) (-1) 0 1 2 3 0

def ywt0 : M128i := _mm_setr_epi16 0 0 3 3 3 0 0 0
def ywt1 : M128i := _mm_setr_epi16 0 2 2 2 2 2 0 0
def ywt2 : M128i := _mm_setr_epi16 1 1 1 1 1 1 1 0

/-- The body of `featureAngle` up to the two sums `(x_sum, y_sum)` that it
converts to `float` (source lines 77-123). -/
def featureAngleSums (image : Image) (px py step : Int) : Option (Int × Int) := do
  let p := (py - 3) * step + (px - 3)
  let x := _mm_setzero_si128
  let y := _mm_setzero_si128

  let r := _mm_cvtepu8_epi16 (← _mm_loadl_epi64 image p)
  let x := _mm_add_epi16 x (_mm_mullo_epi16 r xwt0)
  let y := _mm_sub_epi16 y (_mm_mullo_epi16 r ywt0)
  let p := p + step

  let r := _mm_cvtepu8_epi16 (← _mm_loadl_epi64 image p)
  let x := _mm_add_epi16 x (_mm_mullo_epi16 r xwt1)
  let y := _mm_sub_epi16 y (_mm_mullo_epi16 r ywt1)
  let p := p + step

  let r := _mm_cvtepu8_epi16 (← _mm_loadl_epi64 image p)
  let x := _mm_add_epi16 x (_mm_mullo_epi16 r xwt2)
  let y := _mm_sub_epi16 y (_mm_mullo_epi16 r ywt2)
  let p := p + step

  let r := _mm_cvtepu8_epi16 (← _mm_loadl_epi64 image p)
  let x := _mm_add_epi16 x (_mm_mullo_epi16 r xwt2)
  let p := p + step

  let r := _mm_cvtepu8_epi16 (← _mm_loadl_epi64 image p)
  let x := _mm_add_epi16 x (_mm_mullo_epi16 r xwt2)
  let y := _mm_add_epi16 y (_mm_mullo_epi16 r ywt2)
  let p := p + step

  let r := _mm_cvtepu8_epi16 (← _mm_loadl_epi64 image p)
  let x := _mm_add_epi16 x (_mm_mullo_epi16 r xwt1)
  let y := _mm_add_epi16 y (_mm_mullo_epi16 r ywt1)
  let p := p + step

  let r := _mm_cvtepu8_epi16 (← _mm_loadl_epi64 image p)
  let x := _mm_add_epi16 x (_mm_mullo_epi16 r xwt0)
  let y := _mm_add_epi16 y (_mm_mullo_epi16 r ywt0)

  let x := _mm_add_epi16 x (_mm_shuffle_epi32 x 78)
  let x := _mm_hadd_epi16 x x
  let x := _mm_add_epi16 x (_mm_shufflelo_epi16 x 225)
  let x_sum := toInt16 (_mm_cvtsi128_si32 x)

  let y := _mm_add_epi16 y (_mm_shuffle_epi32 y 78)
  let y := _mm_hadd_epi16 y y
  let y := _mm_add_epi16 y (_mm_shufflelo_epi16 y 225)
  let y_sum := toInt16 (_mm_cvtsi128_si32 y)

  pure (x_sum, y_sum)

/-- The function `featureAngle(image, px, py, step)` of the source: the two
sums, converted to `float` (exactly, both being 16-bit integers), go to
`fastAtan2`. -/
def featureAngle {α : Type} [LinearOrderedField α] (image : Image) (px py step : Int) :
    Option α :=
  (featureAngleSums image px py step).map fun s => fastAtan2 (s.2 : α) (s.1 : α)

/-! ## Section 4: the parts of featureAngleSums, named for the proofs -/

/-- The x accumulator of `featureAngleSums` after the seven rows. -/
def accX (w0 w1 w2 w3 w4 w5 w6 : Low64) : M128i :=
  let x := _mm_setzero_si128
  let x := _mm_add_epi16 x (_mm_mullo_epi16 (_mm_cvtepu8_epi16 w0) xwt0)
  let x := _mm_add_epi16 x (_mm_mullo_epi16 (_mm_cvtepu8_epi16 w1) xwt1)
  let x := _mm_add_epi16 x (_mm_mullo_epi16 (_mm_cvtepu8_epi16 w2) xwt2)
  let x := _mm_add_epi16 x (_mm_mullo_epi16 (_mm_cvtepu8_epi16 w3) xwt2)
  let x := _mm_add_epi16 x (_mm_mullo_epi16 (_mm_cvtepu8_epi16 w4) xwt2)
  let x := _mm_add_epi16 x (_mm_mullo_epi16 (_mm_cvtepu8_epi16 w5) xwt1)
  _mm_add_epi16 x (_mm_mullo_epi16 (_mm_cvtepu8_epi16 w6) xwt0)

/-- The y accumulator of `featureAngleSums` after the seven rows (row 3 does
not contribute). -/
def accY (w0 w1 w2 w4 w5 w6 : Low64) : M128i :=
  let y := _mm_setzero_si128
  let y := _mm_sub_epi16 y (_mm_mullo_epi16 (_mm_cvtepu8_epi16 w0) ywt0)
  let y := _mm_sub_epi16 y (_mm_mullo_epi16 (_mm_cvtepu8_epi16 w1) ywt1)
  let y := _mm_sub_epi16 y (_mm_mullo_epi16 (_mm_cvtepu8_epi16 w2) ywt2)
  let y := _mm_add_epi16 y (_mm_mullo_epi16 (_mm_cvtepu8_epi16 w4) ywt2)
  let y := _mm_add_epi16 y (_mm_mullo_epi16 (_mm_cvtepu8_epi16 w5) ywt1)
  _mm_add_epi16 y (_mm_mullo_epi16 (_mm_cvtepu8_epi16 w6) ywt0)

/-- The horizontal reduction of `featureAngleSums` (source lines 115-118). -/
def hreduce (v : M128i) : Int :=
  let x := _mm_add_epi16 v (_mm_shuffle_epi32 v 78)
  let x := _mm_hadd_epi16 x x
  let x := _mm_add_epi16 x (_mm_shufflelo_epi16 x 225)
  toInt16 (_mm_cvtsi128_si32 x)

/-! ## Section 5: the window and its weighted sums -/

/-- Byte offset of row `r`, column `c` of the 7x7 window centred at
`(px, py)`: the position `(py-3+r)*step + (px-3+c)`. -/
def winOff (px py step : Int) (r c : Nat) : Int :=
  (py - 3 + r) * step + (px - 3 + c)

/-- The byte at offset `off`, with 0 standing for a byte outside the buffer. -/
def byteAt (image : Image) (off : Int) : Fin 256 :=
  (readByte image off).getD 0

/-- The sample `P(r, c)` of the window of `image` centred at `(px, py)`. -/
def pixel (image : Image) (px py step : Int) (r c : Nat) : Int :=
  ((byteAt image (winOff px py step r c)).val : Int)

/-- The circular footprint: rows 0 and 6 hold columns 2..4, rows 1 and 5
hold columns 1..5 and rows 2..4 hold columns 0..6. -/
def inFootprint (r c : Nat) : Bool :=
  match r with
  | 0 => decide (2 ≤ c ∧ c ≤ 4)
  | 1 => decide (1 ≤ c ∧ c ≤ 5)
  | 2 => decide (c ≤ 6)
  | 3 => decide (c ≤ 6)
  | 4 => decide (c ≤ 6)
  | 5 => decide (1 ≤ c ∧ c ≤ 5)
  | 6 => decide (2 ≤ c ∧ c ≤ 4)
  | _ => false

/-- The x mask: `c - 3` on the footprint and 0 elsewhere. -/
def xWeight (r c : Nat) : Int := if inFootprint r c then (c : Int) - 3 else 0

/-- The y mask: `r - 3` on the footprint and 0 elsewhere. -/
def yWeight (r c : Nat) : Int := if inFootprint r c then (r : Int) - 3 else 0

/-- The sum of `w r c * P r c` over the 49 positions of a 7x7 patch. -/
def weightedSum (w : Nat → Nat → Int) (P : Nat → Nat → Int) : Int :=
  ∑ r in Finset.range 7, ∑ c in Finset.range 7, w r c * P r c

/-- The integer sum `x_sum` of a patch. -/
def xSum (P : Nat → Nat → Int) : Int := weightedSum xWeight P

/-- The integer sum `y_sum` of a patch. -/
def ySum (P : Nat → Nat → Int) : Int := weightedSum yWeight P

/-- The 7x7 window of `image` centred at `(px, py)` lies inside the buffer:
the 49 positions `(py-3+r)*step + (px-3+c)`, `r, c` in 0..6, are valid. -/
def WindowInBounds (image : Image) (px py step : Int) : Prop :=
  ∀ r, r < 7 → ∀ c, c < 7 → 0 ≤ winOff px py step r c ∧ winOff px py step r c < image.length

/-- The seven 8-byte rows that `featureAngle` loads lie inside the buffer:
the 56 positions `(py-3+r)*step + (px-3+c)`, `r` in 0..6 and `c` in 0..7, are
valid. -/
def RowsInBounds (image : Image) (px py step : Int) : Prop :=
  ∀ r, r < 7 → ∀ c, c < 8 → 0 ≤ winOff px py step r c ∧ winOff px py step r c < image.length

instance (image : Image) (px py step : Int) : Decidable (WindowInBounds image px py step) := by
  unfold WindowInBounds
  infer_instance

instance (image : Image) (px py step : Int) : Decidable (RowsInBounds image px py step) := by
  unfold RowsInBounds
  infer_instance

/-- The eight bytes of row `r` of the window, as `_mm_loadl_epi64` reads
them. -/
def windowRow (image : Image) (px py step : Int) (r : Nat) : Low64 :=
  ⟨byteAt image (winOff px py step r 0), byteAt image (winOff px py step r 1),
   byteAt image (winOff px py step r 2), byteAt image (winOff px py step r 3),
   byteAt image (winOff px py step r 4), byteAt image (winOff px py step r 5),
   byteAt image (winOff px py step r 6), byteAt image (winOff px py step r 7)⟩

/-! ## Section 6: sample buffers (seven rows of eight bytes, stride 8) -/

/-- A 49-byte buffer holding exactly one 7x7 window (stride 7). -/
def tightImage : Image := List.replicate 49 7

/-- A uniform buffer: every sample is 7. -/
def flatImage : Image := List.replicate 56 7

/-- A buffer with assorted samples. -/
def sampleImage : Image :=
  [ 12, 200,  31,  44, 255,   0,  17,  99,
    73,  73, 180,   5,  66, 240,   9,   1,
     0, 255, 128,  64,  32,  16,   8,   4,
   101, 102, 103, 104, 105, 106, 107, 108,
   250,  20, 230,  40, 210,  60, 190,  80,
     3, 141,  59,  26,  53,  58,  97,  93,
    27, 182,  81,  82,  84,  59,   4,  52]

/-- The horizontal step: columns 0..2 are 0 and columns 4..6 are 255. -/
def hstepImage : Image :=
  [0, 0, 0, 128, 255, 255, 255, 0,
   0, 0, 0, 128, 255, 255, 255, 0,
   0, 0, 0, 128, 255, 255, 255, 0,
   0, 0, 0, 128, 255, 255, 255, 0,
   0, 0, 0, 128, 255, 255, 255, 0,
   0, 0, 0, 128, 255, 255, 255, 0,
   0, 0, 0, 128, 255, 255, 255, 0]

/-- The mirrored horizontal step: columns 0..2 are 255 and columns 4..6 are 0. -/
def hstepMirrorImage : Image :=
  [255, 255, 255, 128, 0, 0, 0, 0,
   255, 255, 255, 128, 0, 0, 0, 0,
   255, 255, 255, 128, 0, 0, 0, 0,
   255, 255, 255, 128, 0, 0, 0, 0,
   255, 255, 255, 128, 0, 0, 0, 0,
   255, 255, 255, 128, 0, 0, 0, 0,
   255, 255, 255, 128, 0, 0, 0, 0]

/-- The vertical step: rows 0..2 are 0 and rows 4..6 are 255. -/
def vstepImage : Image :=
  [  0,   0,   0,   0,   0,   0,   0, 0,
     0,   0,   0,   0,   0,   0,   0, 0,
     0,   0,   0,   0,   0,   0,   0, 0,
   128, 128, 128, 128, 128, 128, 128, 0,
   255, 255, 255, 255, 255, 255, 255, 0,
   255, 255, 255, 255, 255, 255, 255, 0,
   255, 255, 255, 255, 255, 255, 255, 0]

/-- A ramp: brightness grows linearly from left to right, rows identical. -/
def rampImage : Image :=
  [0, 40, 80, 120, 160, 200, 240, 0,
   0, 40, 80, 120, 160, 200, 240, 0,
   0, 40, 80, 120, 160, 200, 240, 0,
   0, 40, 80, 120, 160, 200, 240, 0,
   0, 40, 80, 120, 160, 200, 240, 0,
   0, 40, 80, 120, 160, 200, 240, 0,
   0, 40, 80, 120, 160, 200, 240, 0]

/-! ## Section 7: the same arithmetic with overflow detection -/

/-- Every lane of `v` lies in `[lo, hi]`. -/
def LanesIn (lo hi : Int) (v : M128i) : Prop :=
  (lo ≤ v.e0 ∧ v.e0 ≤ hi) ∧ (lo ≤ v.e1 ∧ v.e1 ≤ hi) ∧ (lo ≤ v.e2 ∧ v.e2 ≤ hi) ∧
  (lo ≤ v.e3 ∧ v.e3 ≤ hi) ∧ (lo ≤ v.e4 ∧ v.e4 ≤ hi) ∧ (lo ≤ v.e5 ∧ v.e5 ≤ hi) ∧
  (lo ≤ v.e6 ∧ v.e6 ≤ hi) ∧ (lo ≤ v.e7 ∧ v.e7 ≤ hi)

instance (lo hi : Int) (v : M128i) : Decidable (LanesIn lo hi v) := by
  unfold LanesIn
  infer_instance

/-- A register of exact lane results, kept only when every lane fits the
signed 16-bit range `[-32768, 32767]`; no result on a 16-bit overflow. -/
def checked16 (v : M128i) : Option M128i :=
  if LanesIn (-32768) 32767 v then some v else none

/-- Lane-wise addition that has no result when a lane overflows 16 bits. -/
def add_epi16_checked (a b : M128i) : Option M128i :=
  checked16 ⟨a.e0 + b.e0, a.e1 + b.e1, a.e2 + b.e2, a.e3 + b.e3,
    a.e4 + b.e4, a.e5 + b.e5, a.e6 + b.e6, a.e7 + b.e7⟩

/-- Lane-wise subtraction that has no result when a lane overflows 16 bits. -/
def sub_epi16_checked (a b : M128i) : Option M128i :=
  checked16 ⟨a.e0 - b.e0, a.e1 - b.e1, a.e2 - b.e2, a.e3 - b.e3,
    a.e4 - b.e4, a.e5 - b.e5, a.e6 - b.e6, a.e7 - b.e7⟩

/-- Lane-wise product that has no result when a product overflows 16 bits. -/
def mullo_epi16_checked (a b : M128i) : Option M128i :=
  checked16 ⟨a.e0 * b.e0, a.e1 * b.e1, a.e2 * b.e2, a.e3 * b.e3,
    a.e4 * b.e4, a.e5 * b.e5, a.e6 * b.e6, a.e7 * b.e7⟩

/-- Horizontal pair sums that have no result when a sum overflows 16 bits. -/
def hadd_epi16_checked (a b : M128i) : Option M128i :=
  checked16 ⟨a.e0 + a.e1, a.e2 + a.e3, a.e4 + a.e5, a.e6 + a.e7,
    b.e0 + b.e1, b.e2 + b.e3, b.e4 + b.e5, b.e6 + b.e7⟩

/-- One source line `x = _mm_add_epi16(x, _mm_mullo_epi16(r, wt))` with
overflow detection. -/
def addMulChecked (x r wt : M128i) : Option M128i :=
  (mullo_epi16_checked r wt).bind fun m => add_epi16_checked x m

/-- One source line `y = _mm_sub_epi16(y, _mm_mullo_epi16(r, wt))` with
overflow detection. -/
def subMulChecked (y r wt : M128i) : Option M128i :=
  (mullo_epi16_checked r wt).bind fun m => sub_epi16_checked y m

/-- The x accumulator with overflow detection, on seven loaded rows. -/
def accXChecked (w0 w1 w2 w3 w4 w5 w6 : Low64) : Option M128i :=
  (addMulChecked _mm_setzero_si128 (_mm_cvtepu8_epi16 w0) xwt0).bind fun x =>
  (addMulChecked x (_mm_cvtepu8_epi16 w1) xwt1).bind fun x =>
  (addMulChecked x (_mm_cvtepu8_epi16 w2) xwt2).bind fun x =>
  (addMulChecked x (_mm_cvtepu8_epi16 w3) xwt2).bind fun x =>
  (addMulChecked x (_mm_cvtepu8_epi16 w4) xwt2).bind fun x =>
  (addMulChecked x (_mm_cvtepu8_epi16 w5) xwt1).bind fun x =>
  addMulChecked x (_mm_cvtepu8_epi16 w6) xwt0

/-- The y accumulator with overflow detection, on the six rows it uses. -/
def accYChecked (w0 w1 w2 w4 w5 w6 : Low64) : Option M128i :=
  (subMulChecked _mm_setzero_si128 (_mm_cvtepu8_epi16 w0) ywt0).bind fun y =>
  (subMulChecked y (_mm_cvtepu8_epi16 w1) ywt1).bind fun y =>
  (subMulChecked y (_mm_cvtepu8_epi16 w2) ywt2).bind fun y =>
  (addMulChecked y (_mm_cvtepu8_epi16 w4) ywt2).bind fun y =>
  (addMulChecked y (_mm_cvtepu8_epi16 w5) ywt1).bind fun y =>
  addMulChecked y (_mm_cvtepu8_epi16 w6) ywt0

/-- The horizontal reduction (source lines 115-118) with overflow
detection. -/
def hreduceChecked (v : M128i) : Option Int :=
  (add_epi16_checked v (_mm_shuffle_epi32 v 78)).bind fun x =>
  (hadd_epi16_checked x x).bind fun x =>
  (add_epi16_checked x (_mm_shufflelo_epi16 x 225)).bind fun x =>
  some (toInt16 (_mm_cvtsi128_si32 x))

/-- The body of `featureAngle` up to the two sums, every 16-bit addition,
subtraction and product replaced by its overflow-detecting version: the seven
rows are loaded as in `featureAngleSums`, and there is a result only if no
lane operation overflows. -/
def featureAngleSumsChecked (image : Image) (px py step : Int) : Option (Int × Int) :=
  (_mm_loadl_epi64 image ((py - 3) * step + (px - 3))).bind fun w0 =>
  (_mm_loadl_epi64 image ((py - 3) * step + (px - 3) + step)).bind fun w1 =>
  (_mm_loadl_epi64 image ((py - 3) * step + (px - 3) + step + step)).bind fun w2 =>
  (_mm_loadl_epi64 image ((py - 3) * step + (px - 3) + step + step + step)).bind fun w3 =>
  (_mm_loadl_epi64 image ((py - 3) * step + (px - 3) + step + step + step + step)).bind fun w4 =>
  (_mm_loadl_epi64 image
    ((py - 3) * step + (px - 3) + step + step + step + step + step)).bind fun w5 =>
  (_mm_loadl_epi64 image
    ((py - 3) * step + (px - 3) + step + step + step + step + step + step)).bind fun w6 =>
  (accXChecked w0 w1 w2 w3 w4 w5 w6).bind fun x =>
  (accYChecked w0 w1 w2 w4 w5 w6).bind fun y =>
  (hreduceChecked x).bind fun x_sum =>
  (hreduceChecked y).bind fun y_sum => some (x_sum, y_sum)

/-! ## Section 8: further definitions for the claims -/

/-- Division that has no result when the divisor is zero. -/
def divChecked {α : Type} [LinearOrderedField α] (a b : α) : Option α :=
  if b = 0 then none else some (a / b)

/-- The function `fastAtan2` in which the division of each branch has no
result when its divisor is zero. -/
def fastAtan2Checked {α : Type} [LinearOrderedField α] (y x : α) : Option α :=
  let ax := |x|
  let ay := |y|
  let a : Option α :=
    if ax ≥ ay then
      (divChecked ay (ax + FLT_MIN)).map fun c =>
        let cc := c * c
        (((-0.0443265555479 * cc + 0.1555786518) * cc - 0.325808397) * cc + 0.9997878412) * c
    else
      (divChecked ax (ay + FLT_MIN)).map fun c =>
        let cc := c * c
        PI * 0.5 - (((-0.0443265555479 * cc + 0.1555786518) * cc - 0.325808397) * cc + 0.9997878412) * c
  a.map fun a =>
    let a := if x < 0 then PI - a else a
    let a := if y < 0 then -a else a
    a

/-- The divisor that `fastAtan2(y, x)` uses: `|x| + FLT_MIN` in the branch
`|x| >= |y|` and `|y| + FLT_MIN` otherwise. -/
def divisor {α : Type} [LinearOrderedField α] (y x : α) : α :=
  if |x| ≥ |y| then |x| + FLT_MIN else |y| + FLT_MIN

/-- The sum of the eight lanes of a register, as an integer. -/
def laneSum (v : M128i) : Int :=
  v.e0 + v.e1 + v.e2 + v.e3 + v.e4 + v.e5 + v.e6 + v.e7

/-- The buffer `sampleImage` with other values at the 12 corner positions of
the window and at the eighth byte of every row. -/
def sampleImageCorners : Image :=
  [  0,   1,  31,  44, 255,   2,   3, 250,
     4,  73, 180,   5,  66, 240,   5, 251,
     0, 255, 128,  64,  32,  16,   8, 252,
   101, 102, 103, 104, 105, 106, 107, 253,
   250,  20, 230,  40, 210,  60, 190, 254,
     6, 141,  59,  26,  53,  58,   7, 255,
     8,   9,  81,  82,  84,  10,  11,  12]

/-- The buffer `sampleImage` mirrored left to right inside the window. -/
def sampleImageMirror : Image :=
  [ 17,   0, 255,  44,  31, 200,  12,  99,
     9, 240,  66,   5, 180,  73,  73,   1,
     8,  16,  32,  64, 128, 255,   0,   4,
   107, 106, 105, 104, 103, 102, 101, 108,
   190,  60, 210,  40, 230,  20, 250,  80,
    97,  58,  53,  26,  59, 141,   3,  93,
     4,  59,  84,  82,  81, 182,  27,  52]

/-- The buffer `rampImage` with 15 added to every sample of the window. -/
def rampBrighterImage : Image :=
  [15, 55, 95, 135, 175, 215, 255, 0,
   15, 55, 95, 135, 175, 215, 255, 0,
   15, 55, 95, 135, 175, 215, 255, 0,
   15, 55, 95, 135, 175, 215, 255, 0,
   15, 55, 95, 135, 175, 215, 255, 0,
   15, 55, 95, 135, 175, 215, 255, 0,
   15, 55, 95, 135, 175, 215, 255, 0]

/-! ## Section 9: lemmas on the lane arithmetic -/

theorem featureAngleSums_rows (image : Image) (px py step : Int) :
    featureAngleSums image px py step =
      (_mm_loadl_epi64 image ((py - 3) * step + (px - 3))).bind fun w0 =>
      (_mm_loadl_epi64 image ((py - 3) * step + (px - 3) + step)).bind fun w1 =>
      (_mm_loadl_epi64 image ((py - 3) * step + (px - 3) + step + step)).bind fun w2 =>
      (_mm_loadl_epi64 image ((py - 3) * step + (px - 3) + step + step + step)).bind fun w3 =>
      (_mm_loadl_epi64 image ((py - 3) * step + (px - 3) + step + step + step + step)).bind fun w4 =>
      (_mm_loadl_epi64 image ((py - 3) * step + (px - 3) + step + step + step + step + step)).bind fun w5 =>
      (_mm_loadl_epi64 image ((py - 3) * step + (px - 3) + step + step + step + step + step + step)).bind fun w6 =>
      some (hreduce (accX w0 w1 w2 w3 w4 w5 w6), hreduce (accY w0 w1 w2 w4 w5 w6)) := rfl

theorem xwt0_eq : xwt0 = ⟨0, 0, -1, 0, 1, 0, 0, 0⟩ := by decide
theorem xwt1_eq : xwt1 = ⟨0, -2, -1, 0, 1, 2, 0, 0⟩ := by decide
theorem xwt2_eq : xwt2 = ⟨-3, -2, -1, 0, 1, 2, 3, 0⟩ := by decide
theorem ywt0_eq : ywt0 = ⟨0, 0, 3, 3, 3, 0, 0, 0⟩ := by decide
theorem ywt1_eq : ywt1 = ⟨0, 2, 2, 2, 2, 2, 0, 0⟩ := by decide
theorem ywt2_eq : ywt2 = ⟨1, 1, 1, 1, 1, 1, 1, 0⟩ := by decide

theorem shuffle_epi32_78 (a : M128i) :
    _mm_shuffle_epi32 a 78 = ⟨a.e4, a.e5, a.e6, a.e7, a.e0, a.e1, a.e2, a.e3⟩ := rfl

theorem shufflelo_epi16_225 (a : M128i) :
    _mm_shufflelo_epi16 a 225 = ⟨a.e1, a.e0, a.e2, a.e3, a.e4, a.e5, a.e6, a.e7⟩ := rfl

theorem add_epi16_eq (a b : M128i) :
    _mm_add_epi16 a b = ⟨wrap16 (a.e0 + b.e0), wrap16 (a.e1 + b.e1), wrap16 (a.e2 + b.e2),
      wrap16 (a.e3 + b.e3), wrap16 (a.e4 + b.e4), wrap16 (a.e5 + b.e5), wrap16 (a.e6 + b.e6),
      wrap16 (a.e7 + b.e7)⟩ := by
  cases a; cases b; rfl

theorem sub_epi16_eq (a b : M128i) :
    _mm_sub_epi16 a b = ⟨wrap16 (a.e0 - b.e0), wrap16 (a.e1 - b.e1), wrap16 (a.e2 - b.e2),
      wrap16 (a.e3 - b.e3), wrap16 (a.e4 - b.e4), wrap16 (a.e5 - b.e5), wrap16 (a.e6 - b.e6),
      wrap16 (a.e7 - b.e7)⟩ := by
  cases a; cases b; rfl

theorem mullo_epi16_eq (a b : M128i) :
    _mm_mullo_epi16 a b = ⟨wrap16 (a.e0 * b.e0), wrap16 (a.e1 * b.e1), wrap16 (a.e2 * b.e2),
      wrap16 (a.e3 * b.e3), wrap16 (a.e4 * b.e4), wrap16 (a.e5 * b.e5), wrap16 (a.e6 * b.e6),
      wrap16 (a.e7 * b.e7)⟩ := by
  cases a; cases b; rfl

theorem hreduce_eq (v : M128i) :
    hreduce v = wrap16 (v.e0 + v.e1 + v.e2 + v.e3 + v.e4 + v.e5 + v.e6 + v.e7) := by
  simp only [hreduce, shuffle_epi32_78, shufflelo_epi16_225, add_epi16_eq, _mm_hadd_epi16,
    _mm_cvtsi128_si32, toInt16, wrap16, wrap32]
  omega

theorem wrap16_eq (z : Int) : wrap16 z = z - 65536 * ((z + 32768) / 65536) := by
  unfold wrap16
  omega

theorem wrap16_add_left (a b : Int) : wrap16 (wrap16 a + b) = wrap16 (a + b) := by
  unfold wrap16
  omega

theorem wrap16_add_right (a b : Int) : wrap16 (a + wrap16 b) = wrap16 (a + b) := by
  unfold wrap16
  omega

theorem wrap16_sub_left (a b : Int) : wrap16 (wrap16 a - b) = wrap16 (a - b) := by
  unfold wrap16
  omega

theorem wrap16_sub_right (a b : Int) : wrap16 (a - wrap16 b) = wrap16 (a - b) := by
  unfold wrap16
  omega

theorem byte_bounds (b : Fin 256) : (0 : Int) ≤ (b.val : Int) ∧ (b.val : Int) ≤ 255 := by
  have := b.isLt
  omega

theorem wrap16_mul_byte (b : Fin 256) (k : Int) (h1 : -128 ≤ k) (h2 : k ≤ 128) :
    wrap16 ((b.val : Int) * k) = k * (b.val : Int) := by
  have hb := byte_bounds b
  have h3 : -32768 ≤ k * (b.val : Int) := by nlinarith
  have h4 : k * (b.val : Int) ≤ 32767 := by nlinarith
  rw [mul_comm]
  unfold wrap16
  omega

theorem add_mk (a0 a1 a2 a3 a4 a5 a6 a7 b0 b1 b2 b3 b4 b5 b6 b7 : Int) :
    _mm_add_epi16 ⟨a0, a1, a2, a3, a4, a5, a6, a7⟩ ⟨b0, b1, b2, b3, b4, b5, b6, b7⟩ =
      ⟨wrap16 (a0 + b0), wrap16 (a1 + b1), wrap16 (a2 + b2), wrap16 (a3 + b3),
       wrap16 (a4 + b4), wrap16 (a5 + b5), wrap16 (a6 + b6), wrap16 (a7 + b7)⟩ := by
  rw [add_epi16_eq]

theorem sub_mk (a0 a1 a2 a3 a4 a5 a6 a7 b0 b1 b2 b3 b4 b5 b6 b7 : Int) :
    _mm_sub_epi16 ⟨a0, a1, a2, a3, a4, a5, a6, a7⟩ ⟨b0, b1, b2, b3, b4, b5, b6, b7⟩ =
      ⟨wrap16 (a0 - b0), wrap16 (a1 - b1), wrap16 (a2 - b2), wrap16 (a3 - b3),
       wrap16 (a4 - b4), wrap16 (a5 - b5), wrap16 (a6 - b6), wrap16 (a7 - b7)⟩ := by
  rw [sub_epi16_eq]

theorem mullo_mk (a0 a1 a2 a3 a4 a5 a6 a7 b0 b1 b2 b3 b4 b5 b6 b7 : Int) :
    _mm_mullo_epi16 ⟨a0, a1, a2, a3, a4, a5, a6, a7⟩ ⟨b0, b1, b2, b3, b4, b5, b6, b7⟩ =
      ⟨wrap16 (a0 * b0), wrap16 (a1 * b1), wrap16 (a2 * b2), wrap16 (a3 * b3),
       wrap16 (a4 * b4), wrap16 (a5 * b5), wrap16 (a6 * b6), wrap16 (a7 * b7)⟩ := by
  rw [mullo_epi16_eq]

theorem byte_mul_bounds (b : Fin 256) (k : Int) (h1 : -3 ≤ k) (h2 : k ≤ 3) :
    -765 ≤ (b.val : Int) * k ∧ (b.val : Int) * k ≤ 765 := by
  have hb := byte_bounds b
  constructor <;> nlinarith

theorem chainX (t0 t1 t2 t3 t4 t5 t6 : Int)
    (h0 : -765 ≤ t0 ∧ t0 ≤ 765) (h1 : -765 ≤ t1 ∧ t1 ≤ 765) (h2 : -765 ≤ t2 ∧ t2 ≤ 765)
    (h3 : -765 ≤ t3 ∧ t3 ≤ 765) (h4 : -765 ≤ t4 ∧ t4 ≤ 765) (h5 : -765 ≤ t5 ∧ t5 ≤ 765)
    (h6 : -765 ≤ t6 ∧ t6 ≤ 765) :
    wrap16 (wrap16 (wrap16 (wrap16 (wrap16 (wrap16 (wrap16 (0 + wrap16 t0) + wrap16 t1)
      + wrap16 t2) + wrap16 t3) + wrap16 t4) + wrap16 t5) + wrap16 t6)
      = t0 + t1 + t2 + t3 + t4 + t5 + t6 := by
  simp only [wrap16_add_left, wrap16_add_right]
  rw [wrap16_eq]
  omega

theorem chainY (t0 t1 t2 t4 t5 t6 : Int)
    (h0 : -765 ≤ t0 ∧ t0 ≤ 765) (h1 : -765 ≤ t1 ∧ t1 ≤ 765) (h2 : -765 ≤ t2 ∧ t2 ≤ 765)
    (h4 : -765 ≤ t4 ∧ t4 ≤ 765) (h5 : -765 ≤ t5 ∧ t5 ≤ 765) (h6 : -765 ≤ t6 ∧ t6 ≤ 765) :
    wrap16 (wrap16 (wrap16 (wrap16 (wrap16 (wrap16 (0 - wrap16 t0) - wrap16 t1)
      - wrap16 t2) + wrap16 t4) + wrap16 t5) + wrap16 t6)
      = -t0 - t1 - t2 + t4 + t5 + t6 := by
  simp only [wrap16_add_left, wrap16_add_right, wrap16_sub_left, wrap16_sub_right]
  rw [wrap16_eq]
  omega

theorem laneX (b0 b1 b2 b3 b4 b5 b6 : Fin 256) (k0 k1 k2 k3 k4 k5 k6 : Int)
    (h0 : -3 ≤ k0 ∧ k0 ≤ 3) (h1 : -3 ≤ k1 ∧ k1 ≤ 3) (h2 : -3 ≤ k2 ∧ k2 ≤ 3)
    (h3 : -3 ≤ k3 ∧ k3 ≤ 3) (h4 : -3 ≤ k4 ∧ k4 ≤ 3) (h5 : -3 ≤ k5 ∧ k5 ≤ 3)
    (h6 : -3 ≤ k6 ∧ k6 ≤ 3) :
    wrap16 (wrap16 (wrap16 (wrap16 (wrap16 (wrap16 (wrap16 (0 + wrap16 ((b0.val : Int) * k0))
      + wrap16 ((b1.val : Int) * k1)) + wrap16 ((b2.val : Int) * k2))
      + wrap16 ((b3.val : Int) * k3)) + wrap16 ((b4.val : Int) * k4))
      + wrap16 ((b5.val : Int) * k5)) + wrap16 ((b6.val : Int) * k6))
      = (b0.val : Int) * k0 + (b1.val : Int) * k1 + (b2.val : Int) * k2 + (b3.val : Int) * k3
        + (b4.val : Int) * k4 + (b5.val : Int) * k5 + (b6.val : Int) * k6 :=
  chainX _ _ _ _ _ _ _ (byte_mul_bounds b0 k0 h0.1 h0.2) (byte_mul_bounds b1 k1 h1.1 h1.2)
    (byte_mul_bounds b2 k2 h2.1 h2.2) (byte_mul_bounds b3 k3 h3.1 h3.2)
    (byte_mul_bounds b4 k4 h4.1 h4.2) (byte_mul_bounds b5 k5 h5.1 h5.2)
    (byte_mul_bounds b6 k6 h6.1 h6.2)

theorem laneY (b0 b1 b2 b4 b5 b6 : Fin 256) (k0 k1 k2 k4 k5 k6 : Int)
    (h0 : -3 ≤ k0 ∧ k0 ≤ 3) (h1 : -3 ≤ k1 ∧ k1 ≤ 3) (h2 : -3 ≤ k2 ∧ k2 ≤ 3)
    (h4 : -3 ≤ k4 ∧ k4 ≤ 3) (h5 : -3 ≤ k5 ∧ k5 ≤ 3) (h6 : -3 ≤ k6 ∧ k6 ≤ 3) :
    wrap16 (wrap16 (wrap16 (wrap16 (wrap16 (wrap16 (0 - wrap16 ((b0.val : Int) * k0))
      - wrap16 ((b1.val : Int) * k1)) - wrap16 ((b2.val : Int) * k2))
      + wrap16 ((b4.val : Int) * k4)) + wrap16 ((b5.val : Int) * k5))
      + wrap16 ((b6.val : Int) * k6))
      = -((b0.val : Int) * k0) - (b1.val : Int) * k1 - (b2.val : Int) * k2
        + (b4.val : Int) * k4 + (b5.val : Int) * k5 + (b6.val : Int) * k6 :=
  chainY _ _ _ _ _ _ (byte_mul_bounds b0 k0 h0.1 h0.2) (byte_mul_bounds b1 k1 h1.1 h1.2)
    (byte_mul_bounds b2 k2 h2.1 h2.2) (byte_mul_bounds b4 k4 h4.1 h4.2)
    (byte_mul_bounds b5 k5 h5.1 h5.2) (byte_mul_bounds b6 k6 h6.1 h6.2)

theorem accX_eq (w0 w1 w2 w3 w4 w5 w6 : Low64) :
    accX w0 w1 w2 w3 w4 w5 w6 =
      ⟨-3 * (w2.b0.val : Int) - 3 * w3.b0.val - 3 * w4.b0.val,
       -2 * (w1.b1.val : Int) - 2 * w2.b1.val - 2 * w3.b1.val - 2 * w4.b1.val - 2 * w5.b1.val,
       -(w0.b2.val : Int) - w1.b2.val - w2.b2.val - w3.b2.val - w4.b2.val - w5.b2.val - w6.b2.val,
       0,
       (w0.b4.val : Int) + w1.b4.val + w2.b4.val + w3.b4.val + w4.b4.val + w5.b4.val + w6.b4.val,
       2 * (w1.b5.val : Int) + 2 * w2.b5.val + 2 * w3.b5.val + 2 * w4.b5.val + 2 * w5.b5.val,
       3 * (w2.b6.val : Int) + 3 * w3.b6.val + 3 * w4.b6.val,
       0⟩ := by
  unfold accX
  simp only [xwt0_eq, xwt1_eq, xwt2_eq, _mm_cvtepu8_epi16, mullo_mk, _mm_setzero_si128, add_mk]
  rw [M128i.mk.injEq]
  simp (disch := norm_num) only [laneX]
  refine ⟨?_, ?_, ?_, ?_, ?_, ?_, ?_, ?_⟩ <;> ring

theorem accY_eq (w0 w1 w2 w4 w5 w6 : Low64) :
    accY w0 w1 w2 w4 w5 w6 =
      ⟨-(w2.b0.val : Int) + w4.b0.val,
       -2 * (w1.b1.val : Int) - w2.b1.val + w4.b1.val + 2 * w5.b1.val,
       -3 * (w0.b2.val : Int) - 2 * w1.b2.val - w2.b2.val + w4.b2.val + 2 * w5.b2.val
         + 3 * w6.b2.val,
       -3 * (w0.b3.val : Int) - 2 * w1.b3.val - w2.b3.val + w4.b3.val + 2 * w5.b3.val
         + 3 * w6.b3.val,
       -3 * (w0.b4.val : Int) - 2 * w1.b4.val - w2.b4.val + w4.b4.val + 2 * w5.b4.val
         + 3 * w6.b4.val,
       -2 * (w1.b5.val : Int) - w2.b5.val + w4.b5.val + 2 * w5.b5.val,
       -(w2.b6.val : Int) + w4.b6.val,
       0⟩ := by
  unfold accY
  simp only [ywt0_eq, ywt1_eq, ywt2_eq, _mm_cvtepu8_epi16, mullo_mk, _mm_setzero_si128, add_mk,
    sub_mk]
  rw [M128i.mk.injEq]
  simp (disch := norm_num) only [laneY]
  refine ⟨?_, ?_, ?_, ?_, ?_, ?_, ?_, ?_⟩ <;> ring

theorem row_bounds (w : Low64) :
    (0 ≤ (w.b0.val : Int) ∧ (w.b0.val : Int) ≤ 255) ∧ (0 ≤ (w.b1.val : Int) ∧ (w.b1.val : Int) ≤ 255)
    ∧ (0 ≤ (w.b2.val : Int) ∧ (w.b2.val : Int) ≤ 255) ∧ (0 ≤ (w.b3.val : Int) ∧ (w.b3.val : Int) ≤ 255)
    ∧ (0 ≤ (w.b4.val : Int) ∧ (w.b4.val : Int) ≤ 255) ∧ (0 ≤ (w.b5.val : Int) ∧ (w.b5.val : Int) ≤ 255)
    ∧ (0 ≤ (w.b6.val : Int) ∧ (w.b6.val : Int) ≤ 255) :=
  ⟨byte_bounds _, byte_bounds _, byte_bounds _, byte_bounds _, byte_bounds _, byte_bounds _,
    byte_bounds _⟩

theorem hreduce_accX (w0 w1 w2 w3 w4 w5 w6 : Low64) :
    hreduce (accX w0 w1 w2 w3 w4 w5 w6) =
      (-(w0.b2.val : Int) + w0.b4.val)
      + (-2 * (w1.b1.val : Int) - w1.b2.val + w1.b4.val + 2 * w1.b5.val)
      + (-3 * (w2.b0.val : Int) - 2 * w2.b1.val - w2.b2.val + w2.b4.val + 2 * w2.b5.val
          + 3 * w2.b6.val)
      + (-3 * (w3.b0.val : Int) - 2 * w3.b1.val - w3.b2.val + w3.b4.val + 2 * w3.b5.val
          + 3 * w3.b6.val)
      + (-3 * (w4.b0.val : Int) - 2 * w4.b1.val - w4.b2.val + w4.b4.val + 2 * w4.b5.val
          + 3 * w4.b6.val)
      + (-2 * (w5.b1.val : Int) - w5.b2.val + w5.b4.val + 2 * w5.b5.val)
      + (-(w6.b2.val : Int) + w6.b4.val) := by
  rw [hreduce_eq, accX_eq, wrap16_eq]
  dsimp only
  have h0 := row_bounds w0
  have h1 := row_bounds w1
  have h2 := row_bounds w2
  have h3 := row_bounds w3
  have h4 := row_bounds w4
  have h5 := row_bounds w5
  have h6 := row_bounds w6
  omega

theorem hreduce_accY (w0 w1 w2 w4 w5 w6 : Low64) :
    hreduce (accY w0 w1 w2 w4 w5 w6) =
      -3 * ((w0.b2.val : Int) + w0.b3.val + w0.b4.val)
      - 2 * ((w1.b1.val : Int) + w1.b2.val + w1.b3.val + w1.b4.val + w1.b5.val)
      - ((w2.b0.val : Int) + w2.b1.val + w2.b2.val + w2.b3.val + w2.b4.val + w2.b5.val
          + w2.b6.val)
      + ((w4.b0.val : Int) + w4.b1.val + w4.b2.val + w4.b3.val + w4.b4.val + w4.b5.val
          + w4.b6.val)
      + 2 * ((w5.b1.val : Int) + w5.b2.val + w5.b3.val + w5.b4.val + w5.b5.val)
      + 3 * ((w6.b2.val : Int) + w6.b3.val + w6.b4.val) := by
  rw [hreduce_eq, accY_eq, wrap16_eq]
  dsimp only
  have h0 := row_bounds w0
  have h1 := row_bounds w1
  have h2 := row_bounds w2
  have h4 := row_bounds w4
  have h5 := row_bounds w5
  have h6 := row_bounds w6
  omega

/-! ## Section 10: loads and the window -/

theorem readByte_of_bounds (image : Image) (off : Int) (h0 : 0 ≤ off)
    (h1 : off < image.length) : readByte image off = some (byteAt image off) := by
  have h2 : off.toNat < image.length := by omega
  simp [byteAt, readByte, h0, List.getElem?_eq_getElem h2]

theorem readByte_isSome_iff (image : Image) (off : Int) :
    (readByte image off).isSome ↔ 0 ≤ off ∧ off < image.length := by
  unfold readByte
  by_cases h0 : 0 ≤ off
  · simp only [h0, if_true, true_and]
    rw [List.get?_eq_getElem?, Option.isSome_iff_exists]
    constructor
    · rintro ⟨b, hb⟩
      have := (List.getElem?_eq_some_iff.1 hb).1
      omega
    · intro h
      have h2 : off.toNat < image.length := by omega
      exact ⟨_, List.getElem?_eq_getElem h2⟩
  · simp [h0]

theorem loadl_windowRow (image : Image) (px py step : Int) (h : RowsInBounds image px py step)
    (r : Nat) (hr : r < 7) :
    _mm_loadl_epi64 image (winOff px py step r 0) = some (windowRow image px py step r) := by
  have e : ∀ c : Nat, winOff px py step r 0 + (c : Int) = winOff px py step r c := by
    intro c
    simp only [winOff]
    push_cast
    ring
  have e1 := e 1
  have e2 := e 2
  have e3 := e 3
  have e4 := e 4
  have e5 := e 5
  have e6 := e 6
  have e7 := e 7
  push_cast at e1 e2 e3 e4 e5 e6 e7
  have g : ∀ c, c < 8 →
      readByte image (winOff px py step r c) = some (byteAt image (winOff px py step r c)) :=
    fun c hc => readByte_of_bounds image _ (h r hr c hc).1 (h r hr c hc).2
  simp only [_mm_loadl_epi64, e1, e2, e3, e4, e5, e6, e7, g 0 (by norm_num), g 1 (by norm_num),
    g 2 (by norm_num), g 3 (by norm_num), g 4 (by norm_num), g 5 (by norm_num),
    g 6 (by norm_num), g 7 (by norm_num), windowRow, Option.bind_eq_bind, Option.some_bind,
    Option.pure_def]

theorem featureAngleSums_windowRows (image : Image) (px py step : Int)
    (h : RowsInBounds image px py step) :
    featureAngleSums image px py step =
      some (hreduce (accX (windowRow image px py step 0) (windowRow image px py step 1)
              (windowRow image px py step 2) (windowRow image px py step 3)
              (windowRow image px py step 4) (windowRow image px py step 5)
              (windowRow image px py step 6)),
            hreduce (accY (windowRow image px py step 0) (windowRow image px py step 1)
              (windowRow image px py step 2) (windowRow image px py step 4)
              (windowRow image px py step 5) (windowRow image px py step 6))) := by
  have a0 : (py - 3) * step + (px - 3) = winOff px py step 0 0 := by
    simp only [winOff]; push_cast; ring
  have a1 : winOff px py step 0 0 + step = winOff px py step 1 0 := by
    simp only [winOff]; push_cast; ring
  have a2 : winOff px py step 1 0 + step = winOff px py step 2 0 := by
    simp only [winOff]; push_cast; ring
  have a3 : winOff px py step 2 0 + step = winOff px py step 3 0 := by
    simp only [winOff]; push_cast; ring
  have a4 : winOff px py step 3 0 + step = winOff px py step 4 0 := by
    simp only [winOff]; push_cast; ring
  have a5 : winOff px py step 4 0 + step = winOff px py step 5 0 := by
    simp only [winOff]; push_cast; ring
  have a6 : winOff px py step 5 0 + step = winOff px py step 6 0 := by
    simp only [winOff]; push_cast; ring
  rw [featureAngleSums_rows, a0, a1, a2, a3, a4, a5, a6,
    loadl_windowRow image px py step h 0 (by norm_num),
    loadl_windowRow image px py step h 1 (by norm_num),
    loadl_windowRow image px py step h 2 (by norm_num),
    loadl_windowRow image px py step h 3 (by norm_num),
    loadl_windowRow image px py step h 4 (by norm_num),
    loadl_windowRow image px py step h 5 (by norm_num),
    loadl_windowRow image px py step h 6 (by norm_num)]
  rfl

theorem xSum_expand (P : Nat → Nat → Int) :
    xSum P =
      (-(P 0 2) + P 0 4)
      + (-2 * P 1 1 - P 1 2 + P 1 4 + 2 * P 1 5)
      + (-3 * P 2 0 - 2 * P 2 1 - P 2 2 + P 2 4 + 2 * P 2 5 + 3 * P 2 6)
      + (-3 * P 3 0 - 2 * P 3 1 - P 3 2 + P 3 4 + 2 * P 3 5 + 3 * P 3 6)
      + (-3 * P 4 0 - 2 * P 4 1 - P 4 2 + P 4 4 + 2 * P 4 5 + 3 * P 4 6)
      + (-2 * P 5 1 - P 5 2 + P 5 4 + 2 * P 5 5)
      + (-(P 6 2) + P 6 4) := by
  simp only [xSum, weightedSum, xWeight, inFootprint, Finset.sum_range_succ, Finset.sum_range_zero]
  norm_num
  ring

theorem ySum_expand (P : Nat → Nat → Int) :
    ySum P =
      -3 * (P 0 2 + P 0 3 + P 0 4)
      - 2 * (P 1 1 + P 1 2 + P 1 3 + P 1 4 + P 1 5)
      - (P 2 0 + P 2 1 + P 2 2 + P 2 3 + P 2 4 + P 2 5 + P 2 6)
      + (P 4 0 + P 4 1 + P 4 2 + P 4 3 + P 4 4 + P 4 5 + P 4 6)
      + 2 * (P 5 1 + P 5 2 + P 5 3 + P 5 4 + P 5 5)
      + 3 * (P 6 2 + P 6 3 + P 6 4) := by
  simp only [ySum, weightedSum, yWeight, inFootprint, Finset.sum_range_succ, Finset.sum_range_zero]
  norm_num
  ring

/-- The two sums of `featureAngle` are the exact weighted sums of the
window, whenever the seven loaded rows lie inside the buffer. -/
theorem featureAngleSums_eq (image : Image) (px py step : Int)
    (h : RowsInBounds image px py step) :
    featureAngleSums image px py step =
      some (xSum (pixel image px py step), ySum (pixel image px py step)) := by
  rw [featureAngleSums_windowRows image px py step h, hreduce_accX, hreduce_accY, xSum_expand,
    ySum_expand]
  rfl

theorem loadl_eq_some_bounds (image : Image) (p : Int) (w : Low64)
    (h : _mm_loadl_epi64 image p = some w) : 0 ≤ p ∧ p + 7 < image.length := by
  simp only [_mm_loadl_epi64, Option.bind_eq_bind, Option.bind_eq_some] at h
  obtain ⟨b0, h0, _, _, _, _, _, _, _, _, _, _, _, _, b7, h7, _⟩ := h
  have k0 := (readByte_isSome_iff image p).1 (by rw [h0]; rfl)
  have k7 := (readByte_isSome_iff image (p + 7)).1 (by rw [h7]; rfl)
  omega

theorem winOff_eq (px py step : Int) (r c : Nat) :
    winOff px py step r c = ((py - 3) * step + (px - 3)) + r * step + c := by
  simp only [winOff]
  ring

theorem featureAngleSums_isSome_iff (image : Image) (px py step : Int) :
    (featureAngleSums image px py step).isSome ↔ RowsInBounds image px py step := by
  constructor
  · intro h
    rw [Option.isSome_iff_exists] at h
    obtain ⟨s, hs⟩ := h
    simp only [featureAngleSums_rows, Option.bind_eq_some] at hs
    obtain ⟨w0, h0, w1, h1, w2, h2, w3, h3, w4, h4, w5, h5, w6, h6, _⟩ := hs
    have k0 := loadl_eq_some_bounds _ _ _ h0
    have k1 := loadl_eq_some_bounds _ _ _ h1
    have k2 := loadl_eq_some_bounds _ _ _ h2
    have k3 := loadl_eq_some_bounds _ _ _ h3
    have k4 := loadl_eq_some_bounds _ _ _ h4
    have k5 := loadl_eq_some_bounds _ _ _ h5
    have k6 := loadl_eq_some_bounds _ _ _ h6
    intro r hr c hc
    rw [winOff_eq]
    generalize (py - 3) * step + (px - 3) = p at *
    interval_cases r <;> push_cast <;> omega
  · intro h
    rw [featureAngleSums_eq image px py step h]
    rfl

/-! ## Section 11: values of fastAtan2 on the axes -/

theorem FLT_MIN_pos {α : Type} [LinearOrderedField α] : (0 : α) < FLT_MIN := by
  unfold FLT_MIN
  positivity

theorem PI_pos {α : Type} [LinearOrderedField α] : (0 : α) < PI := by
  unfold PI
  norm_num

theorem fastAtan2_zero_of_nonneg {α : Type} [LinearOrderedField α] (x : α) (hx : 0 ≤ x) :
    fastAtan2 0 x = 0 := by
  have h1 : ¬ x < 0 := not_lt.2 hx
  simp [fastAtan2, h1]

theorem fastAtan2_zero_of_neg {α : Type} [LinearOrderedField α] (x : α) (hx : x < 0) :
    fastAtan2 0 x = PI := by
  simp [fastAtan2, hx]

theorem fastAtan2_pos_zero {α : Type} [LinearOrderedField α] (y : α) (hy : 0 < y) :
    fastAtan2 y 0 = PI * 0.5 := by
  have h1 : ¬ y < 0 := not_lt.2 hy.le
  have h2 : ¬ |y| ≤ 0 := by
    rw [abs_of_pos hy]
    exact not_le.2 hy
  simp [fastAtan2, h1, h2]

theorem featureAngle_eq {α : Type} [LinearOrderedField α] (image : Image) (px py step : Int)
    (h : RowsInBounds image px py step) :
    (featureAngle image px py step : Option α) =
      some (fastAtan2 ((ySum (pixel image px py step) : Int) : α)
        ((xSum (pixel image px py step) : Int) : α)) := by
  simp only [featureAngle, featureAngleSums_eq image px py step h, Option.map_some']

/-! ## Section 12: the sums of a patch -/

theorem weightedSum_congr (w : Nat → Nat → Int) (P Q : Nat → Nat → Int)
    (h : ∀ r, r < 7 → ∀ c, c < 7 → P r c = Q r c) : weightedSum w P = weightedSum w Q := by
  unfold weightedSum
  refine Finset.sum_congr rfl fun r hr => Finset.sum_congr rfl fun c hc => ?_
  rw [h r (Finset.mem_range.1 hr) c (Finset.mem_range.1 hc)]

theorem xSum_congr (P Q : Nat → Nat → Int) (h : ∀ r, r < 7 → ∀ c, c < 7 → P r c = Q r c) :
    xSum P = xSum Q :=
  weightedSum_congr xWeight P Q h

theorem ySum_congr (P Q : Nat → Nat → Int) (h : ∀ r, r < 7 → ∀ c, c < 7 → P r c = Q r c) :
    ySum P = ySum Q :=
  weightedSum_congr yWeight P Q h

theorem pixel_bounds (image : Image) (px py step : Int) (r c : Nat) :
    0 ≤ pixel image px py step r c ∧ pixel image px py step r c ≤ 255 :=
  byte_bounds _

theorem ySum_of_rows_identical (P : Nat → Nat → Int)
    (h : ∀ r, r < 7 → ∀ c, c < 7 → P r c = P 0 c) : ySum P = 0 := by
  rw [ySum_congr P (fun _ c => P 0 c) h, ySum_expand]
  ring

theorem xSum_of_rows_identical (P : Nat → Nat → Int)
    (h : ∀ r, r < 7 → ∀ c, c < 7 → P r c = P 0 c) :
    xSum P = 9 * (P 0 6 - P 0 0) + 10 * (P 0 5 - P 0 1) + 7 * (P 0 4 - P 0 2) := by
  rw [xSum_congr P (fun _ c => P 0 c) h, xSum_expand]
  ring

theorem xSum_of_cols_identical (P : Nat → Nat → Int)
    (h : ∀ r, r < 7 → ∀ c, c < 7 → P r c = P r 0) : xSum P = 0 := by
  rw [xSum_congr P (fun r _ => P r 0) h, xSum_expand]
  ring

theorem ySum_of_cols_identical (P : Nat → Nat → Int)
    (h : ∀ r, r < 7 → ∀ c, c < 7 → P r c = P r 0) :
    ySum P = 9 * (P 6 0 - P 0 0) + 10 * (P 5 0 - P 1 0) + 7 * (P 4 0 - P 2 0) := by
  rw [ySum_congr P (fun r _ => P r 0) h, ySum_expand]
  ring

theorem sums_rotate (P : Nat → Nat → Int) :
    xSum (fun r c => P (6 - c) r) = -ySum P ∧ ySum (fun r c => P (6 - c) r) = xSum P := by
  simp only [xSum_expand, ySum_expand]
  norm_num
  constructor <;> ring

theorem sums_transpose (P : Nat → Nat → Int) :
    xSum (fun r c => P c r) = ySum P ∧ ySum (fun r c => P c r) = xSum P := by
  simp only [xSum_expand, ySum_expand]
  constructor <;> ring

/-! ## Section 13: the claims on featureAngle -/

/-- C1: when the seven loaded rows lie inside the buffer, the two sums that
`featureAngle` hands to `fastAtan2` are the integer weighted sums
`x_sum = sum of (c-3)*P(r,c)` and `y_sum = sum of (r-3)*P(r,c)` over the
footprint (weight 0 elsewhere), the footprint has 37 positions, and
`featureAngle` returns `fastAtan2(y_sum, x_sum)`. -/
theorem featureAngle_sums_are_weighted_sums {α : Type} [LinearOrderedField α]
    (image : Image) (px py step : Int) (h : RowsInBounds image px py step) :
    featureAngleSums image px py step =
        some (∑ r in Finset.range 7, ∑ c in Finset.range 7,
                (if inFootprint r c then (c : Int) - 3 else 0) * pixel image px py step r c,
              ∑ r in Finset.range 7, ∑ c in Finset.range 7,
                (if inFootprint r c then (r : Int) - 3 else 0) * pixel image px py step r c)
      ∧ (featureAngle image px py step : Option α) =
          some (fastAtan2 ((ySum (pixel image px py step) : Int) : α)
            ((xSum (pixel image px py step) : Int) : α))
      ∧ ((Finset.range 7 ×ˢ Finset.range 7).filter fun p => inFootprint p.1 p.2 = true).card
          = 37 :=
  ⟨featureAngleSums_eq image px py step h, featureAngle_eq image px py step h, by decide⟩

theorem featureAngle_sums_are_weighted_sums_witness :
    RowsInBounds sampleImage 3 3 8 ∧
      featureAngleSums sampleImage 3 3 8 =
        some (∑ r in Finset.range 7, ∑ c in Finset.range 7,
                (if inFootprint r c then (c : Int) - 3 else 0) * pixel sampleImage 3 3 8 r c,
              ∑ r in Finset.range 7, ∑ c in Finset.range 7,
                (if inFootprint r c then (r : Int) - 3 else 0) * pixel sampleImage 3 3 8 r c) :=
  ⟨by decide, (@featureAngle_sums_are_weighted_sums ℚ _ sampleImage 3 3 8 (by decide)).1⟩

/-- C7: on a patch whose 49 samples all equal `v`, the sums are `(0, 0)`
and `featureAngle` returns exactly 0. -/
theorem uniform_patch_angle_zero {α : Type} [LinearOrderedField α]
    (image : Image) (px py step : Int) (h : RowsInBounds image px py step) (v : Int)
    (hv : ∀ r, r < 7 → ∀ c, c < 7 → pixel image px py step r c = v) :
    featureAngleSums image px py step = some (0, 0) ∧
      (featureAngle image px py step : Option α) = some 0 ∧
      fastAtan2 (0 : α) 0 = 0 := by
  have hx : xSum (pixel image px py step) = 0 := by
    rw [xSum_congr _ (fun _ _ => v) hv, xSum_expand]
    ring
  have hy : ySum (pixel image px py step) = 0 := by
    rw [ySum_congr _ (fun _ _ => v) hv, ySum_expand]
    ring
  refine ⟨?_, ?_, fastAtan2_zero_of_nonneg 0 le_rfl⟩
  · rw [featureAngleSums_eq image px py step h, hx, hy]
  · rw [featureAngle_eq image px py step h, hx, hy]
    simp only [Int.cast_zero]
    rw [fastAtan2_zero_of_nonneg 0 le_rfl]

theorem uniform_patch_angle_zero_witness :
    RowsInBounds flatImage 3 3 8 ∧ (∀ r, r < 7 → ∀ c, c < 7 → pixel flatImage 3 3 8 r c = 7) ∧
      featureAngleSums flatImage 3 3 8 = some (0, 0) ∧
      (featureAngle flatImage 3 3 8 : Option ℚ) = some 0 :=
  ⟨by decide, by decide,
    (@uniform_patch_angle_zero ℚ _ flatImage 3 3 8 (by decide) 7 (by decide)).1,
    (@uniform_patch_angle_zero ℚ _ flatImage 3 3 8 (by decide) 7 (by decide)).2.1⟩

theorem featureAngle_of_rows_identical {α : Type} [LinearOrderedField α]
    (image : Image) (px py step : Int) (h : RowsInBounds image px py step)
    (hrows : ∀ r, r < 7 → ∀ c, c < 7 →
      pixel image px py step r c = pixel image px py step 0 c) :
    featureAngleSums image px py step = some (xSum (pixel image px py step), 0) ∧
      (featureAngle image px py step : Option α) =
        some (if 0 ≤ xSum (pixel image px py step) then 0 else PI) := by
  have hy : ySum (pixel image px py step) = 0 := ySum_of_rows_identical _ hrows
  constructor
  · rw [featureAngleSums_eq image px py step h, hy]
  · rw [featureAngle_eq image px py step h, hy]
    simp only [Int.cast_zero]
    by_cases hc : 0 ≤ xSum (pixel image px py step)
    · rw [if_pos hc, fastAtan2_zero_of_nonneg _ (by exact_mod_cast hc)]
    · rw [if_neg hc, fastAtan2_zero_of_neg _ (by exact_mod_cast not_le.1 hc)]

/-- C8: on a patch whose seven rows are identical, `y_sum = 0` and
`featureAngle` returns exactly 0 when `x_sum >= 0` and exactly `PI` when
`x_sum < 0`; the horizontal step (columns 0..2 are 0, columns 4..6 are 255)
gives `x_sum = 6630`, `y_sum = 0` and angle 0, and the mirrored step gives
`x_sum = -6630`, `y_sum = 0` and angle `PI`. -/
theorem rows_identical_angle {α : Type} [LinearOrderedField α]
    (image : Image) (px py step : Int) (h : RowsInBounds image px py step)
    (hrows : ∀ r, r < 7 → ∀ c, c < 7 →
      pixel image px py step r c = pixel image px py step 0 c) :
    featureAngleSums image px py step = some (xSum (pixel image px py step), 0) ∧
      (featureAngle image px py step : Option α) =
        some (if 0 ≤ xSum (pixel image px py step) then 0 else PI) ∧
      ((∀ c, c < 3 → pixel image px py step 0 c = 0) →
        (∀ c, 4 ≤ c → c < 7 → pixel image px py step 0 c = 255) →
          featureAngleSums image px py step = some (6630, 0) ∧
            (featureAngle image px py step : Option α) = some 0) ∧
      ((∀ c, c < 3 → pixel image px py step 0 c = 255) →
        (∀ c, 4 ≤ c → c < 7 → pixel image px py step 0 c = 0) →
          featureAngleSums image px py step = some (-6630, 0) ∧
            (featureAngle image px py step : Option α) = some PI) := by
  have hx := xSum_of_rows_identical _ hrows
  have hs := (@featureAngle_of_rows_identical α _ image px py step h hrows).1
  have ha := (@featureAngle_of_rows_identical α _ image px py step h hrows).2
  refine ⟨hs, ha, ?_, ?_⟩
  · intro h0 h1
    have e : xSum (pixel image px py step) = 6630 := by
      rw [hx, h0 0 (by norm_num), h0 1 (by norm_num), h0 2 (by norm_num),
        h1 4 (by norm_num) (by norm_num), h1 5 (by norm_num) (by norm_num),
        h1 6 (by norm_num) (by norm_num)]
      norm_num
    rw [ha, hs, e]
    exact ⟨rfl, by norm_num⟩
  · intro h0 h1
    have e : xSum (pixel image px py step) = -6630 := by
      rw [hx, h0 0 (by norm_num), h0 1 (by norm_num), h0 2 (by norm_num),
        h1 4 (by norm_num) (by norm_num), h1 5 (by norm_num) (by norm_num),
        h1 6 (by norm_num) (by norm_num)]
      norm_num
    rw [ha, hs, e]
    exact ⟨rfl, by norm_num⟩

theorem rows_identical_angle_witness :
    RowsInBounds hstepMirrorImage 3 3 8 ∧
      (∀ r, r < 7 → ∀ c, c < 7 →
        pixel hstepMirrorImage 3 3 8 r c = pixel hstepMirrorImage 3 3 8 0 c) ∧
      (∀ c, c < 3 → pixel hstepMirrorImage 3 3 8 0 c = 255) ∧
      (∀ c, 4 ≤ c → c < 7 → pixel hstepMirrorImage 3 3 8 0 c = 0) ∧
      featureAngleSums hstepMirrorImage 3 3 8 = some (-6630, 0) ∧
      (featureAngle hstepMirrorImage 3 3 8 : Option ℚ) = some PI :=
  ⟨by decide, by decide, by decide, by decide,
    (@rows_identical_angle ℚ _ hstepMirrorImage 3 3 8 (by decide) (by decide)).2.2.2
      (by decide) (by decide)⟩

/-- C9: on a patch that is constant from top to bottom and whose intensity
is non-decreasing and not constant from left to right, `x_sum > 0`,
`y_sum = 0` and `featureAngle` returns exactly 0, hence an angle within
0.01 of 0. -/
theorem ramp_patch_angle_zero {α : Type} [LinearOrderedField α]
    (image : Image) (px py step : Int) (h : RowsInBounds image px py step)
    (hrows : ∀ r, r < 7 → ∀ c, c < 7 →
      pixel image px py step r c = pixel image px py step 0 c)
    (hmono : ∀ c, c < 6 → pixel image px py step 0 c ≤ pixel image px py step 0 (c + 1))
    (hne : ∃ c, c < 7 ∧ ∃ d, d < 7 ∧ pixel image px py step 0 c ≠ pixel image px py step 0 d) :
    0 < xSum (pixel image px py step) ∧
      featureAngleSums image px py step = some (xSum (pixel image px py step), 0) ∧
      (featureAngle image px py step : Option α) = some 0 ∧
      ∀ a : α, (featureAngle image px py step : Option α) = some a → |a - 0| ≤ 0.01 := by
  have hx := xSum_of_rows_identical _ hrows
  have m0 := hmono 0 (by norm_num)
  have m1 := hmono 1 (by norm_num)
  have m2 := hmono 2 (by norm_num)
  have m3 := hmono 3 (by norm_num)
  have m4 := hmono 4 (by norm_num)
  have m5 := hmono 5 (by norm_num)
  norm_num at m0 m1 m2 m3 m4 m5
  have hpos : 0 < xSum (pixel image px py step) := by
    obtain ⟨c, hc, d, hd, hcd⟩ := hne
    have h06 : pixel image px py step 0 0 < pixel image px py step 0 6 := by
      by_contra hcon
      apply hcd
      interval_cases c <;> interval_cases d <;> omega
    omega
  have r8 := (@featureAngle_of_rows_identical α _ image px py step h hrows)
  have ha : (featureAngle image px py step : Option α) = some 0 := by
    rw [r8.2, if_pos hpos.le]
  refine ⟨hpos, r8.1, ha, ?_⟩
  intro a hsome
  rw [ha] at hsome
  rw [← Option.some.inj hsome]
  norm_num

theorem ramp_patch_angle_zero_witness :
    RowsInBounds rampImage 3 3 8 ∧ 0 < xSum (pixel rampImage 3 3 8) ∧
      (featureAngle rampImage 3 3 8 : Option ℚ) = some 0 :=
  ⟨by decide,
    (@ramp_patch_angle_zero ℚ _ rampImage 3 3 8 (by decide) (by decide) (by decide)
      ⟨0, by decide, 6, by decide, by decide⟩).1,
    (@ramp_patch_angle_zero ℚ _ rampImage 3 3 8 (by decide) (by decide) (by decide)
      ⟨0, by decide, 6, by decide, by decide⟩).2.2.1⟩

/-- C10: if the window of a second buffer is the quarter-turn rotation
`Q(r, c) = P(6-c, r)` of the window `P` of a first one, then
`x_sum(Q) = -y_sum(P)` and `y_sum(Q) = x_sum(P)`; if it is the transpose
`T(r, c) = P(c, r)`, then `x_sum(T) = y_sum(P)` and `y_sum(T) = x_sum(P)`;
and the vertical step (intensity depending on the row only, rows 0..2 at 0
and rows 4..6 at 255) gives `x_sum = 0`, `y_sum = 6630` and the angle
`PI * 0.5`, that is `PI/2`. -/
theorem rotated_patch_sums {α : Type} [LinearOrderedField α]
    (image : Image) (px py step : Int) (h : RowsInBounds image px py step)
    (image2 : Image) (px2 py2 step2 : Int) (h2 : RowsInBounds image2 px2 py2 step2) :
    ((∀ r, r < 7 → ∀ c, c < 7 →
        pixel image2 px2 py2 step2 r c = pixel image px py step (6 - c) r) →
      featureAngleSums image2 px2 py2 step2 =
        some (-ySum (pixel image px py step), xSum (pixel image px py step))) ∧
    ((∀ r, r < 7 → ∀ c, c < 7 →
        pixel image2 px2 py2 step2 r c = pixel image px py step c r) →
      featureAngleSums image2 px2 py2 step2 =
        some (ySum (pixel image px py step), xSum (pixel image px py step))) ∧
    featureAngleSums image px py step =
      some (xSum (pixel image px py step), ySum (pixel image px py step)) ∧
    ((∀ r, r < 7 → ∀ c, c < 7 → pixel image px py step r c = pixel image px py step r 0) →
      (∀ r, r < 3 → pixel image px py step r 0 = 0) →
      (∀ r, 4 ≤ r → r < 7 → pixel image px py step r 0 = 255) →
        featureAngleSums image px py step = some (0, 6630) ∧
          (featureAngle image px py step : Option α) = some (PI * 0.5) ∧
          (PI * 0.5 : α) = PI / 2) := by
  refine ⟨?_, ?_, featureAngleSums_eq image px py step h, ?_⟩
  · intro hq
    rw [featureAngleSums_eq image2 px2 py2 step2 h2, xSum_congr _ _ hq, ySum_congr _ _ hq,
      (sums_rotate (pixel image px py step)).1, (sums_rotate (pixel image px py step)).2]
  · intro hq
    rw [featureAngleSums_eq image2 px2 py2 step2 h2, xSum_congr _ _ hq, ySum_congr _ _ hq,
      (sums_transpose (pixel image px py step)).1, (sums_transpose (pixel image px py step)).2]
  · intro hcols h0 h1
    have hx : xSum (pixel image px py step) = 0 := xSum_of_cols_identical _ hcols
    have hy : ySum (pixel image px py step) = 6630 := by
      rw [ySum_of_cols_identical _ hcols, h0 0 (by norm_num), h0 1 (by norm_num),
        h0 2 (by norm_num), h1 4 (by norm_num) (by norm_num), h1 5 (by norm_num) (by norm_num),
        h1 6 (by norm_num) (by norm_num)]
      norm_num
    refine ⟨?_, ?_, by norm_num; ring⟩
    · rw [featureAngleSums_eq image px py step h, hx, hy]
    · rw [featureAngle_eq image px py step h, hx, hy]
      simp only [Int.cast_zero]
      rw [fastAtan2_pos_zero _ (by norm_num)]

theorem rotated_patch_sums_witness :
    RowsInBounds hstepImage 3 3 8 ∧ RowsInBounds vstepImage 3 3 8 ∧
      (∀ r, r < 7 → ∀ c, c < 7 → pixel vstepImage 3 3 8 r c = pixel hstepImage 3 3 8 (6 - c) r) ∧
      featureAngleSums vstepImage 3 3 8 =
        some (-ySum (pixel hstepImage 3 3 8), xSum (pixel hstepImage 3 3 8)) :=
  ⟨by decide, by decide, by decide,
    (@rotated_patch_sums ℚ _ hstepImage 3 3 8 (by decide) vstepImage 3 3 8 (by decide)).1
      (by decide)⟩

/-- C5, as stated, fails at `y = 0` with `x < 0`: there `fastAtan2(-y, x)`
and `fastAtan2(y, x)` are both `PI`, not opposite. -/
theorem fastAtan2_not_odd_on_negative_axis :
    fastAtan2 (-(0 : ℚ)) (-1) = PI ∧ fastAtan2 (0 : ℚ) (-1) = PI ∧
      fastAtan2 (-(0 : ℚ)) (-1) ≠ -fastAtan2 (0 : ℚ) (-1) := by
  have h : fastAtan2 (0 : ℚ) (-1) = PI := fastAtan2_zero_of_neg _ (by norm_num)
  refine ⟨by rw [neg_zero]; exact h, h, ?_⟩
  rw [neg_zero, h]
  norm_num [PI]

/-- C5, amended: `fastAtan2(-y, x) = -fastAtan2(y, x)` for all `x` and `y`
except `y = 0` with `x < 0`. -/
theorem fastAtan2_odd {α : Type} [LinearOrderedField α] (y x : α) (h : y ≠ 0 ∨ 0 ≤ x) :
    fastAtan2 (-y) x = -fastAtan2 y x := by
  rcases lt_trichotomy y 0 with hy | hy | hy
  · have h1 : ¬ -y < 0 := by
      rw [neg_lt_zero]
      exact not_lt.2 hy.le
    simp only [fastAtan2, abs_neg, hy, h1, if_true, if_false, neg_neg]
  · subst hy
    have hx : 0 ≤ x := by
      rcases h with h | h
      · exact absurd rfl h
      · exact h
    rw [neg_zero, fastAtan2_zero_of_nonneg x hx, neg_zero]
  · have h1 : -y < 0 := neg_lt_zero.2 hy
    have h2 : ¬ y < 0 := not_lt.2 hy.le
    simp only [fastAtan2, abs_neg, h1, h2, if_true, if_false]

theorem fastAtan2_odd_witness :
    ((1 : ℚ) ≠ 0 ∨ (0 : ℚ) ≤ -1) ∧ fastAtan2 (-(1 : ℚ)) (-1) = -fastAtan2 (1 : ℚ) (-1) :=
  ⟨Or.inl one_ne_zero, fastAtan2_odd 1 (-1) (Or.inl one_ne_zero)⟩

/-! ## Section 14: absence of 16-bit overflow -/

theorem wrap16_of_mem (z : Int) (h1 : -32768 ≤ z) (h2 : z ≤ 32767) : wrap16 z = z := by
  rw [wrap16_eq]
  omega

theorem checked16_of (v : M128i) (h : LanesIn (-32768) 32767 v) : checked16 v = some v :=
  if_pos h

theorem cvtepu8_lanes (w : Low64) : LanesIn 0 255 (_mm_cvtepu8_epi16 w) :=
  ⟨byte_bounds _, byte_bounds _, byte_bounds _, byte_bounds _, byte_bounds _, byte_bounds _,
    byte_bounds _, byte_bounds _⟩

theorem mul_bounds (a b : Int) (ha : 0 ≤ a ∧ a ≤ 255) (hb : -3 ≤ b ∧ b ≤ 3) :
    -765 ≤ a * b ∧ a * b ≤ 765 := by
  constructor <;> nlinarith [ha.1, ha.2, hb.1, hb.2]

theorem mullo_checked_ok (r wt : M128i) (hr : LanesIn 0 255 r) (hw : LanesIn (-3) 3 wt) :
    mullo_epi16_checked r wt = some (_mm_mullo_epi16 r wt) ∧
      LanesIn (-765) 765 (_mm_mullo_epi16 r wt) := by
  obtain ⟨r0, r1, r2, r3, r4, r5, r6, r7⟩ := r
  obtain ⟨t0, t1, t2, t3, t4, t5, t6, t7⟩ := wt
  obtain ⟨a0, a1, a2, a3, a4, a5, a6, a7⟩ := hr
  obtain ⟨b0, b1, b2, b3, b4, b5, b6, b7⟩ := hw
  dsimp only at a0 a1 a2 a3 a4 a5 a6 a7 b0 b1 b2 b3 b4 b5 b6 b7
  have m0 := mul_bounds r0 t0 a0 b0
  have m1 := mul_bounds r1 t1 a1 b1
  have m2 := mul_bounds r2 t2 a2 b2
  have m3 := mul_bounds r3 t3 a3 b3
  have m4 := mul_bounds r4 t4 a4 b4
  have m5 := mul_bounds r5 t5 a5 b5
  have m6 := mul_bounds r6 t6 a6 b6
  have m7 := mul_bounds r7 t7 a7 b7
  have e : _mm_mullo_epi16 ⟨r0, r1, r2, r3, r4, r5, r6, r7⟩ ⟨t0, t1, t2, t3, t4, t5, t6, t7⟩ =
      ⟨r0 * t0, r1 * t1, r2 * t2, r3 * t3, r4 * t4, r5 * t5, r6 * t6, r7 * t7⟩ := by
    rw [mullo_mk, wrap16_of_mem _ (by omega) (by omega), wrap16_of_mem _ (by omega) (by omega),
      wrap16_of_mem _ (by omega) (by omega), wrap16_of_mem _ (by omega) (by omega),
      wrap16_of_mem _ (by omega) (by omega), wrap16_of_mem _ (by omega) (by omega),
      wrap16_of_mem _ (by omega) (by omega), wrap16_of_mem _ (by omega) (by omega)]
  rw [e]
  refine ⟨checked16_of _ ⟨?_, ?_, ?_, ?_, ?_, ?_, ?_, ?_⟩, m0, m1, m2, m3, m4, m5, m6, m7⟩ <;>
    dsimp only <;> omega

theorem add_checked_ok (a b : M128i) (la ha lb hb : Int) (h1 : LanesIn la ha a)
    (h2 : LanesIn lb hb b) (hlo : -32768 ≤ la + lb) (hhi : ha + hb ≤ 32767) :
    add_epi16_checked a b = some (_mm_add_epi16 a b) ∧
      LanesIn (la + lb) (ha + hb) (_mm_add_epi16 a b) := by
  obtain ⟨r0, r1, r2, r3, r4, r5, r6, r7⟩ := a
  obtain ⟨t0, t1, t2, t3, t4, t5, t6, t7⟩ := b
  obtain ⟨a0, a1, a2, a3, a4, a5, a6, a7⟩ := h1
  obtain ⟨b0, b1, b2, b3, b4, b5, b6, b7⟩ := h2
  dsimp only at a0 a1 a2 a3 a4 a5 a6 a7 b0 b1 b2 b3 b4 b5 b6 b7
  have e : _mm_add_epi16 ⟨r0, r1, r2, r3, r4, r5, r6, r7⟩ ⟨t0, t1, t2, t3, t4, t5, t6, t7⟩ =
      ⟨r0 + t0, r1 + t1, r2 + t2, r3 + t3, r4 + t4, r5 + t5, r6 + t6, r7 + t7⟩ := by
    rw [add_mk, wrap16_of_mem _ (by omega) (by omega), wrap16_of_mem _ (by omega) (by omega),
      wrap16_of_mem _ (by omega) (by omega), wrap16_of_mem _ (by omega) (by omega),
      wrap16_of_mem _ (by omega) (by omega), wrap16_of_mem _ (by omega) (by omega),
      wrap16_of_mem _ (by omega) (by omega), wrap16_of_mem _ (by omega) (by omega)]
  rw [e]
  refine ⟨checked16_of _ ⟨?_, ?_, ?_, ?_, ?_, ?_, ?_, ?_⟩, ?_, ?_, ?_, ?_, ?_, ?_, ?_, ?_⟩ <;>
    dsimp only <;> omega

theorem sub_checked_ok (a b : M128i) (la ha lb hb : Int) (h1 : LanesIn la ha a)
    (h2 : LanesIn lb hb b) (hlo : -32768 ≤ la - hb) (hhi : ha - lb ≤ 32767) :
    sub_epi16_checked a b = some (_mm_sub_epi16 a b) ∧
      LanesIn (la - hb) (ha - lb) (_mm_sub_epi16 a b) := by
  obtain ⟨r0, r1, r2, r3, r4, r5, r6, r7⟩ := a
  obtain ⟨t0, t1, t2, t3, t4, t5, t6, t7⟩ := b
  obtain ⟨a0, a1, a2, a3, a4, a5, a6, a7⟩ := h1
  obtain ⟨b0, b1, b2, b3, b4, b5, b6, b7⟩ := h2
  dsimp only at a0 a1 a2 a3 a4 a5 a6 a7 b0 b1 b2 b3 b4 b5 b6 b7
  have e : _mm_sub_epi16 ⟨r0, r1, r2, r3, r4, r5, r6, r7⟩ ⟨t0, t1, t2, t3, t4, t5, t6, t7⟩ =
      ⟨r0 - t0, r1 - t1, r2 - t2, r3 - t3, r4 - t4, r5 - t5, r6 - t6, r7 - t7⟩ := by
    rw [sub_mk, wrap16_of_mem _ (by omega) (by omega), wrap16_of_mem _ (by omega) (by omega),
      wrap16_of_mem _ (by omega) (by omega), wrap16_of_mem _ (by omega) (by omega),
      wrap16_of_mem _ (by omega) (by omega), wrap16_of_mem _ (by omega) (by omega),
      wrap16_of_mem _ (by omega) (by omega), wrap16_of_mem _ (by omega) (by omega)]
  rw [e]
  refine ⟨checked16_of _ ⟨?_, ?_, ?_, ?_, ?_, ?_, ?_, ?_⟩, ?_, ?_, ?_, ?_, ?_, ?_, ?_, ?_⟩ <;>
    dsimp only <;> omega

theorem hadd_checked_ok (a : M128i) (la ha : Int) (h1 : LanesIn la ha a)
    (hlo : -32768 ≤ la + la) (hhi : ha + ha ≤ 32767) :
    hadd_epi16_checked a a = some (_mm_hadd_epi16 a a) ∧
      LanesIn (la + la) (ha + ha) (_mm_hadd_epi16 a a) := by
  obtain ⟨r0, r1, r2, r3, r4, r5, r6, r7⟩ := a
  obtain ⟨a0, a1, a2, a3, a4, a5, a6, a7⟩ := h1
  dsimp only at a0 a1 a2 a3 a4 a5 a6 a7
  have e : _mm_hadd_epi16 ⟨r0, r1, r2, r3, r4, r5, r6, r7⟩ ⟨r0, r1, r2, r3, r4, r5, r6, r7⟩ =
      ⟨r0 + r1, r2 + r3, r4 + r5, r6 + r7, r0 + r1, r2 + r3, r4 + r5, r6 + r7⟩ := by
    simp only [_mm_hadd_epi16]
    rw [wrap16_of_mem _ (by omega) (by omega), wrap16_of_mem _ (by omega) (by omega),
      wrap16_of_mem _ (by omega) (by omega), wrap16_of_mem _ (by omega) (by omega)]
  rw [e]
  refine ⟨checked16_of _ ⟨?_, ?_, ?_, ?_, ?_, ?_, ?_, ?_⟩, ?_, ?_, ?_, ?_, ?_, ?_, ?_, ?_⟩ <;>
    dsimp only <;> omega

theorem xwt0_lanes : LanesIn (-3) 3 xwt0 := by decide
theorem xwt1_lanes : LanesIn (-3) 3 xwt1 := by decide
theorem xwt2_lanes : LanesIn (-3) 3 xwt2 := by decide
theorem ywt0_lanes : LanesIn (-3) 3 ywt0 := by decide
theorem ywt1_lanes : LanesIn (-3) 3 ywt1 := by decide
theorem ywt2_lanes : LanesIn (-3) 3 ywt2 := by decide

theorem addMul_checked_ok (x : M128i) (w : Low64) (wt : M128i) (lo hi : Int)
    (hx : LanesIn lo hi x) (hw : LanesIn (-3) 3 wt) (hlo : -32768 ≤ lo + -765)
    (hhi : hi + 765 ≤ 32767) :
    addMulChecked x (_mm_cvtepu8_epi16 w) wt =
        some (_mm_add_epi16 x (_mm_mullo_epi16 (_mm_cvtepu8_epi16 w) wt)) ∧
      LanesIn (lo + -765) (hi + 765)
        (_mm_add_epi16 x (_mm_mullo_epi16 (_mm_cvtepu8_epi16 w) wt)) := by
  have m := mullo_checked_ok (_mm_cvtepu8_epi16 w) wt (cvtepu8_lanes w) hw
  have a := add_checked_ok x _ lo hi (-765) 765 hx m.2 hlo hhi
  exact ⟨by rw [addMulChecked, m.1, Option.some_bind, a.1], a.2⟩

theorem subMul_checked_ok (y : M128i) (w : Low64) (wt : M128i) (lo hi : Int)
    (hy : LanesIn lo hi y) (hw : LanesIn (-3) 3 wt) (hlo : -32768 ≤ lo - 765)
    (hhi : hi - -765 ≤ 32767) :
    subMulChecked y (_mm_cvtepu8_epi16 w) wt =
        some (_mm_sub_epi16 y (_mm_mullo_epi16 (_mm_cvtepu8_epi16 w) wt)) ∧
      LanesIn (lo - 765) (hi - -765)
        (_mm_sub_epi16 y (_mm_mullo_epi16 (_mm_cvtepu8_epi16 w) wt)) := by
  have m := mullo_checked_ok (_mm_cvtepu8_epi16 w) wt (cvtepu8_lanes w) hw
  have a := sub_checked_ok y _ lo hi (-765) 765 hy m.2 hlo hhi
  exact ⟨by rw [subMulChecked, m.1, Option.some_bind, a.1], a.2⟩

theorem zero_lanes : LanesIn 0 0 _mm_setzero_si128 := by decide

theorem accXChecked_eq (w0 w1 w2 w3 w4 w5 w6 : Low64) :
    accXChecked w0 w1 w2 w3 w4 w5 w6 = some (accX w0 w1 w2 w3 w4 w5 w6) := by
  have s0 := addMul_checked_ok _ w0 xwt0 _ _ zero_lanes xwt0_lanes (by norm_num) (by norm_num)
  have s1 := addMul_checked_ok _ w1 xwt1 _ _ s0.2 xwt1_lanes (by norm_num) (by norm_num)
  have s2 := addMul_checked_ok _ w2 xwt2 _ _ s1.2 xwt2_lanes (by norm_num) (by norm_num)
  have s3 := addMul_checked_ok _ w3 xwt2 _ _ s2.2 xwt2_lanes (by norm_num) (by norm_num)
  have s4 := addMul_checked_ok _ w4 xwt2 _ _ s3.2 xwt2_lanes (by norm_num) (by norm_num)
  have s5 := addMul_checked_ok _ w5 xwt1 _ _ s4.2 xwt1_lanes (by norm_num) (by norm_num)
  have s6 := addMul_checked_ok _ w6 xwt0 _ _ s5.2 xwt0_lanes (by norm_num) (by norm_num)
  rw [accXChecked, s0.1, Option.some_bind, s1.1, Option.some_bind, s2.1, Option.some_bind, s3.1,
    Option.some_bind, s4.1, Option.some_bind, s5.1, Option.some_bind, s6.1]
  rfl

theorem accYChecked_eq (w0 w1 w2 w4 w5 w6 : Low64) :
    accYChecked w0 w1 w2 w4 w5 w6 = some (accY w0 w1 w2 w4 w5 w6) := by
  have s0 := subMul_checked_ok _ w0 ywt0 _ _ zero_lanes ywt0_lanes (by norm_num) (by norm_num)
  have s1 := subMul_checked_ok _ w1 ywt1 _ _ s0.2 ywt1_lanes (by norm_num) (by norm_num)
  have s2 := subMul_checked_ok _ w2 ywt2 _ _ s1.2 ywt2_lanes (by norm_num) (by norm_num)
  have s4 := addMul_checked_ok _ w4 ywt2 _ _ s2.2 ywt2_lanes (by norm_num) (by norm_num)
  have s5 := addMul_checked_ok _ w5 ywt1 _ _ s4.2 ywt1_lanes (by norm_num) (by norm_num)
  have s6 := addMul_checked_ok _ w6 ywt0 _ _ s5.2 ywt0_lanes (by norm_num) (by norm_num)
  rw [accYChecked, s0.1, Option.some_bind, s1.1, Option.some_bind, s2.1, Option.some_bind, s4.1,
    Option.some_bind, s5.1, Option.some_bind, s6.1]
  rfl

theorem accX_lanes (w0 w1 w2 w3 w4 w5 w6 : Low64) :
    LanesIn (-2550) 2550 (accX w0 w1 w2 w3 w4 w5 w6) := by
  rw [accX_eq]
  have h0 := row_bounds w0
  have h1 := row_bounds w1
  have h2 := row_bounds w2
  have h3 := row_bounds w3
  have h4 := row_bounds w4
  have h5 := row_bounds w5
  have h6 := row_bounds w6
  refine ⟨?_, ?_, ?_, ?_, ?_, ?_, ?_, ?_⟩ <;> dsimp only <;> omega

theorem accY_lanes (w0 w1 w2 w4 w5 w6 : Low64) :
    LanesIn (-1530) 1530 (accY w0 w1 w2 w4 w5 w6) := by
  rw [accY_eq]
  have h0 := row_bounds w0
  have h1 := row_bounds w1
  have h2 := row_bounds w2
  have h4 := row_bounds w4
  have h5 := row_bounds w5
  have h6 := row_bounds w6
  refine ⟨?_, ?_, ?_, ?_, ?_, ?_, ?_, ?_⟩ <;> dsimp only <;> omega

theorem lanes_mono (v : M128i) (lo hi lo2 hi2 : Int) (h : LanesIn lo hi v) (h1 : lo2 ≤ lo)
    (h2 : hi ≤ hi2) : LanesIn lo2 hi2 v := by
  obtain ⟨a0, a1, a2, a3, a4, a5, a6, a7⟩ := h
  refine ⟨?_, ?_, ?_, ?_, ?_, ?_, ?_, ?_⟩ <;> omega

theorem shuffle_epi32_lanes (v : M128i) (lo hi : Int) (h : LanesIn lo hi v) :
    LanesIn lo hi (_mm_shuffle_epi32 v 78) := by
  rw [shuffle_epi32_78]
  obtain ⟨a0, a1, a2, a3, a4, a5, a6, a7⟩ := h
  exact ⟨a4, a5, a6, a7, a0, a1, a2, a3⟩

theorem shufflelo_epi16_lanes (v : M128i) (lo hi : Int) (h : LanesIn lo hi v) :
    LanesIn lo hi (_mm_shufflelo_epi16 v 225) := by
  rw [shufflelo_epi16_225]
  obtain ⟨a0, a1, a2, a3, a4, a5, a6, a7⟩ := h
  exact ⟨a1, a0, a2, a3, a4, a5, a6, a7⟩

theorem hreduceChecked_eq (v : M128i) (h : LanesIn (-4000) 4000 v) :
    hreduceChecked v = some (hreduce v) := by
  have s1 := add_checked_ok v _ _ _ _ _ h (shuffle_epi32_lanes v _ _ h) (by norm_num)
    (by norm_num)
  have s2 := hadd_checked_ok _ _ _ s1.2 (by norm_num) (by norm_num)
  have s3 := add_checked_ok _ _ _ _ _ _ s2.2 (shufflelo_epi16_lanes _ _ _ s2.2) (by norm_num)
    (by norm_num)
  rw [hreduceChecked, s1.1, Option.some_bind, s2.1, Option.some_bind, s3.1, Option.some_bind]
  rfl

theorem checked_sums_of_rows (w0 w1 w2 w3 w4 w5 w6 : Low64) :
    ((accXChecked w0 w1 w2 w3 w4 w5 w6).bind fun x =>
      (accYChecked w0 w1 w2 w4 w5 w6).bind fun y =>
      (hreduceChecked x).bind fun x_sum =>
      (hreduceChecked y).bind fun y_sum => some (x_sum, y_sum)) =
      some (hreduce (accX w0 w1 w2 w3 w4 w5 w6), hreduce (accY w0 w1 w2 w4 w5 w6)) := by
  have hx := hreduceChecked_eq _ (lanes_mono _ _ _ (-4000) 4000 (accX_lanes w0 w1 w2 w3 w4 w5 w6)
    (by norm_num) (by norm_num))
  have hy := hreduceChecked_eq _ (lanes_mono _ _ _ (-4000) 4000 (accY_lanes w0 w1 w2 w4 w5 w6)
    (by norm_num) (by norm_num))
  rw [accXChecked_eq, Option.some_bind, accYChecked_eq, Option.some_bind, hx, Option.some_bind,
    hy, Option.some_bind]

theorem featureAngleSumsChecked_eq (image : Image) (px py step : Int) :
    featureAngleSumsChecked image px py step = featureAngleSums image px py step := by
  rw [featureAngleSums_rows]
  unfold featureAngleSumsChecked
  simp only [checked_sums_of_rows]

theorem abs_xSum_le (image : Image) (px py step : Int) :
    |xSum (pixel image px py step)| ≤ 6630 := by
  rw [xSum_expand, abs_le]
  have h := fun r c => pixel_bounds image px py step r c
  constructor <;>
    linarith [h 0 2, h 0 4, h 1 1, h 1 2, h 1 4, h 1 5, h 2 0, h 2 1, h 2 2, h 2 4, h 2 5,
      h 2 6, h 3 0, h 3 1, h 3 2, h 3 4, h 3 5, h 3 6, h 4 0, h 4 1, h 4 2, h 4 4, h 4 5,
      h 4 6, h 5 1, h 5 2, h 5 4, h 5 5, h 6 2, h 6 4]

theorem abs_ySum_le (image : Image) (px py step : Int) :
    |ySum (pixel image px py step)| ≤ 6630 := by
  rw [ySum_expand, abs_le]
  have h := fun r c => pixel_bounds image px py step r c
  constructor <;>
    linarith [h 0 2, h 0 3, h 0 4, h 1 1, h 1 2, h 1 3, h 1 4, h 1 5, h 2 0, h 2 1, h 2 2,
      h 2 3, h 2 4, h 2 5, h 2 6, h 4 0, h 4 1, h 4 2, h 4 3, h 4 4, h 4 5, h 4 6, h 5 1,
      h 5 2, h 5 3, h 5 4, h 5 5, h 6 2, h 6 3, h 6 4]

/-- C6: no 16-bit overflow occurs in `featureAngle`. Every per-element
product of a sample by a weight has magnitude at most 765; the run in
which every lane addition, subtraction and product detects overflow has the
same result as the wrapping run, on every input; and when the rows are
loaded both sums are the exact integer sums, of magnitude at most
`6630 = 26 * 255`, a bound attained by the two step patches. -/
theorem no_overflow_in_featureAngle (image : Image) (px py step : Int) :
    (∀ w : Low64, ∀ wt, wt ∈ [xwt0, xwt1, xwt2, ywt0, ywt1, ywt2] →
        mullo_epi16_checked (_mm_cvtepu8_epi16 w) wt
            = some (_mm_mullo_epi16 (_mm_cvtepu8_epi16 w) wt) ∧
          LanesIn (-765) 765 (_mm_mullo_epi16 (_mm_cvtepu8_epi16 w) wt)) ∧
      featureAngleSumsChecked image px py step = featureAngleSums image px py step ∧
      (RowsInBounds image px py step →
        featureAngleSums image px py step =
            some (xSum (pixel image px py step), ySum (pixel image px py step)) ∧
          |xSum (pixel image px py step)| ≤ 6630 ∧ |ySum (pixel image px py step)| ≤ 6630) ∧
      (6630 : Int) = 26 * 255 ∧ 3 * 255 = (765 : Int) ∧
      featureAngleSums hstepImage 3 3 8 = some (6630, 0) ∧
      featureAngleSums vstepImage 3 3 8 = some (0, 6630) := by
  refine ⟨?_, featureAngleSumsChecked_eq image px py step, ?_, by norm_num, by norm_num,
    by decide, by decide⟩
  · intro w wt hwt
    have hw : LanesIn (-3) 3 wt := by
      simp only [List.mem_cons, List.mem_singleton, List.not_mem_nil, or_false] at hwt
      rcases hwt with h | h | h | h | h | h <;> rw [h]
      · exact xwt0_lanes
      · exact xwt1_lanes
      · exact xwt2_lanes
      · exact ywt0_lanes
      · exact ywt1_lanes
      · exact ywt2_lanes
    exact mullo_checked_ok _ _ (cvtepu8_lanes w) hw
  · intro h
    exact ⟨featureAngleSums_eq image px py step h, abs_xSum_le image px py step,
      abs_ySum_le image px py step⟩


theorem no_overflow_in_featureAngle_witness :
    RowsInBounds sampleImage 3 3 8 ∧
      featureAngleSumsChecked sampleImage 3 3 8 = featureAngleSums sampleImage 3 3 8 ∧
      |xSum (pixel sampleImage 3 3 8)| ≤ 6630 ∧ |ySum (pixel sampleImage 3 3 8)| ≤ 6630 :=
  ⟨by decide, (no_overflow_in_featureAngle sampleImage 3 3 8).2.1,
    ((no_overflow_in_featureAngle sampleImage 3 3 8).2.2.1 (by decide)).2⟩

theorem fastAtan2_eq_baseAngle {α : Type} [LinearOrderedField α] (y x : α) :
    fastAtan2 y x =
      if y < 0 then -(if x < 0 then PI - baseAngle y x else baseAngle y x)
      else (if x < 0 then PI - baseAngle y x else baseAngle y x) := rfl

theorem ratio_bounds {α : Type} [LinearOrderedField α] (a b : α) (ha : 0 ≤ a) (hab : a ≤ b) :
    0 ≤ a / (b + FLT_MIN) ∧ a / (b + FLT_MIN) < 1 := by
  have hε : (0 : α) < FLT_MIN := FLT_MIN_pos
  have hd : 0 < b + FLT_MIN := by linarith
  constructor
  · exact div_nonneg ha hd.le
  · rw [div_lt_one hd]
    linarith

theorem ratio_pos {α : Type} [LinearOrderedField α] (a b : α) (ha : 0 < a) (hab : a ≤ b) :
    0 < a / (b + FLT_MIN) := by
  have hε : (0 : α) < FLT_MIN := FLT_MIN_pos
  exact div_pos ha (by linarith)

theorem atanPoly_bounds {α : Type} [LinearOrderedField α] (c : α) (h0 : 0 ≤ c) (h1 : c ≤ 1) :
    0.62 * c ≤ atanPoly c ∧ atanPoly c ≤ 1.16 * c := by
  have t0 : 0 ≤ c * c := mul_nonneg h0 h0
  have t1 : c * c ≤ 1 := by nlinarith
  have t2 : 0 ≤ (c * c) * (c * c) := mul_nonneg t0 t0
  have t3 : (c * c) * (c * c) ≤ c * c := by nlinarith
  have t4 : 0 ≤ (c * c) * (c * c) * (c * c) := mul_nonneg t2 t0
  have t5 : (c * c) * (c * c) * (c * c) ≤ (c * c) * (c * c) := by nlinarith
  have q0 : (0.62 : α) ≤
      ((-0.0443265555479 * (c * c) + 0.1555786518) * (c * c) - 0.325808397) * (c * c)
        + 0.9997878412 := by
    nlinarith
  have q1 : ((-0.0443265555479 * (c * c) + 0.1555786518) * (c * c) - 0.325808397) * (c * c)
        + 0.9997878412 ≤ (1.16 : α) := by
    nlinarith
  unfold atanPoly
  constructor
  · exact mul_le_mul_of_nonneg_right q0 h0
  · exact mul_le_mul_of_nonneg_right q1 h0

theorem baseAngle_bounds {α : Type} [LinearOrderedField α] (y x : α) :
    0 ≤ baseAngle y x ∧ baseAngle y x < PI ∧ (y ≠ 0 → 0 < baseAngle y x) := by
  have hP : (PI : α) = 3.1415927 := rfl
  unfold baseAngle
  by_cases h : |x| ≥ |y|
  · rw [if_pos h]
    have r := ratio_bounds |y| |x| (abs_nonneg y) h
    have p := atanPoly_bounds _ r.1 r.2.le
    refine ⟨by linarith [p.1, r.1], by linarith [p.2, r.2], fun hy => ?_⟩
    have r2 := ratio_pos |y| |x| (abs_pos.2 hy) h
    linarith [p.1]
  · rw [if_neg h]
    have h' : |x| ≤ |y| := (not_le.1 h).le
    have r := ratio_bounds |x| |y| (abs_nonneg x) h'
    have p := atanPoly_bounds _ r.1 r.2.le
    refine ⟨by linarith [p.2, r.2], by linarith [p.1, r.1], fun _ => by linarith [p.2, r.2]⟩

/-- C2, as stated, fails at both ends: on the negative x axis `fastAtan2`
returns the constant `PI = 3.1415927`, which is larger than the number pi,
and just below that axis it returns a value smaller than `-pi`. -/
theorem fastAtan2_exceeds_pi :
    fastAtan2 (0 : ℝ) (-1) = 3.1415927 ∧ Real.pi < fastAtan2 (0 : ℝ) (-1) ∧
      fastAtan2 (-(1 / 10 ^ 8) : ℝ) (-1) < -Real.pi := by
  have h : fastAtan2 (0 : ℝ) (-1) = PI := fastAtan2_zero_of_neg _ (by norm_num)
  have hP : (PI : ℝ) = 3.1415927 := rfl
  have hpi := Real.pi_lt_d20
  refine ⟨by rw [h, hP], ?_, ?_⟩
  · rw [h, hP]
    norm_num at hpi ⊢
    linarith
  · have hε : (0 : ℝ) < FLT_MIN := FLT_MIN_pos
    have hy : (-(1 / 10 ^ 8) : ℝ) < 0 := by norm_num
    have hx : (-1 : ℝ) < 0 := by norm_num
    have hb : |(-1 : ℝ)| ≥ |(-(1 / 10 ^ 8) : ℝ)| := by
      rw [abs_neg, abs_neg, abs_one, abs_of_pos (by positivity)]
      norm_num
    have r := ratio_bounds |(-(1 / 10 ^ 8) : ℝ)| |(-1 : ℝ)| (abs_nonneg _) hb
    have hc : |(-(1 / 10 ^ 8) : ℝ)| / (|(-1 : ℝ)| + FLT_MIN) ≤ 1 / 10 ^ 8 := by
      rw [abs_neg, abs_neg, abs_one, abs_of_pos (by positivity), div_le_iff₀ (by linarith)]
      nlinarith
    have p := atanPoly_bounds _ r.1 r.2.le
    rw [fastAtan2_eq_baseAngle, if_pos hy, if_pos hx, baseAngle, if_pos hb, hP]
    norm_num at hpi hc p ⊢
    linarith [p.2]

/-- C2, amended: `fastAtan2(y, x)` lies in the closed range `[-PI, PI]`,
for the constant `PI` of the program, the upper end being returned on the
negative x axis; and the angle that `featureAngle` returns lies between
`-PI` and `PI`. -/
theorem fastAtan2_range {α : Type} [LinearOrderedField α] (y x : α) :
    -PI ≤ fastAtan2 y x ∧ fastAtan2 y x ≤ PI ∧ fastAtan2 (0 : α) (-1) = PI ∧
      ∀ (image : Image) (px py step : Int) (a : α),
        featureAngle image px py step = some a → -PI ≤ a ∧ a ≤ PI := by
  have key : ∀ y x : α, -PI ≤ fastAtan2 y x ∧ fastAtan2 y x ≤ PI := by
    intro y x
    have hP : (0 : α) < PI := PI_pos
    have b := baseAngle_bounds y x
    rw [fastAtan2_eq_baseAngle]
    by_cases hy : y < 0
    · rw [if_pos hy]
      by_cases hx : x < 0
      · rw [if_pos hx]
        constructor <;> linarith [b.1, b.2.1]
      · rw [if_neg hx]
        constructor <;> linarith [b.1, b.2.1]
    · rw [if_neg hy]
      by_cases hx : x < 0
      · rw [if_pos hx]
        constructor <;> linarith [b.1, b.2.1]
      · rw [if_neg hx]
        constructor <;> linarith [b.1, b.2.1]
  refine ⟨(key y x).1, (key y x).2, fastAtan2_zero_of_neg _ (by norm_num), ?_⟩
  intro image px py step a ha
  simp only [featureAngle, Option.map_eq_some'] at ha
  obtain ⟨s, _, hs⟩ := ha
  rw [← hs]
  exact key _ _

/-! ## Section 16: the accuracy of fastAtan2 against arctan -/

theorem bernstein_nonneg (t a b : ℝ) (ha : a ≤ t) (hb : t ≤ b) :
    0 ≤ (b - t) ^ 4 ∧ 0 ≤ (t - a) * (b - t) ^ 3 ∧ 0 ≤ (t - a) ^ 2 * (b - t) ^ 2 ∧
      0 ≤ (t - a) ^ 3 * (b - t) ∧ 0 ≤ (t - a) ^ 4 := by
  have h1 : 0 ≤ t - a := sub_nonneg.2 ha
  have h2 : 0 ≤ b - t := sub_nonneg.2 hb
  exact ⟨by positivity, by positivity, by positivity, by positivity, by positivity⟩

theorem derivErr_poly_A (t : ℝ) (h0 : 0 ≤ t) (h1 : t ≤ 0.9025) :
    |(-(7 * 0.0443265555479) * t ^ 3 + 5 * 0.1555786518 * t ^ 2 - 3 * 0.325808397 * t
        + 0.9997878412) * (1 + t) - 1| ≤ 0.003 * (1 + t) := by
  rw [abs_le]
  rcases le_total t 0.45125 with h | h
  · obtain ⟨b0, b1, b2, b3, b4⟩ := bernstein_nonneg t 0 0.45125 h0 h
    constructor <;> linarith [b0, b1, b2, b3, b4]
  · rcases le_total t 0.676875 with h' | h'
    · obtain ⟨b0, b1, b2, b3, b4⟩ := bernstein_nonneg t 0.45125 0.676875 h h'
      constructor <;> linarith [b0, b1, b2, b3, b4]
    · obtain ⟨b0, b1, b2, b3, b4⟩ := bernstein_nonneg t 0.676875 0.9025 h' h1
      constructor <;> linarith [b0, b1, b2, b3, b4]

theorem derivErr_poly_B (t : ℝ) (h0 : 0.9025 ≤ t) (h1 : t ≤ 1) :
    |(-(7 * 0.0443265555479) * t ^ 3 + 5 * 0.1555786518 * t ^ 2 - 3 * 0.325808397 * t
        + 0.9997878412) * (1 + t) - 1| ≤ 0.0101 * (1 + t) := by
  rw [abs_le]
  obtain ⟨b0, b1, b2, b3, b4⟩ := bernstein_nonneg t 0.9025 1 h0 h1
  constructor <;> linarith [b0, b1, b2, b3, b4]

theorem derivErr_bound (c M : ℝ)
    (h : |(-(7 * 0.0443265555479) * (c ^ 2) ^ 3 + 5 * 0.1555786518 * (c ^ 2) ^ 2
        - 3 * 0.325808397 * (c ^ 2) + 0.9997878412) * (1 + c ^ 2) - 1| ≤ M * (1 + c ^ 2)) :
    |atanPolyDeriv c - 1 / (1 + c ^ 2)| ≤ M := by
  have hp : (0 : ℝ) < 1 + c ^ 2 := by positivity
  have e : atanPolyDeriv c - 1 / (1 + c ^ 2) =
      ((-(7 * 0.0443265555479) * (c ^ 2) ^ 3 + 5 * 0.1555786518 * (c ^ 2) ^ 2
        - 3 * 0.325808397 * (c ^ 2) + 0.9997878412) * (1 + c ^ 2) - 1) / (1 + c ^ 2) := by
    rw [eq_div_iff hp.ne', sub_mul, one_div, inv_mul_cancel₀ hp.ne']
    unfold atanPolyDeriv
    ring
  rw [e, abs_div, abs_of_pos hp, div_le_iff₀ hp]
  exact h

theorem hasDerivAt_atanPoly (c : ℝ) : HasDerivAt (atanPoly : ℝ → ℝ) (atanPolyDeriv c) c := by
  have h7 := (hasDerivAt_pow 7 c).const_mul (-(0.0443265555479 : ℝ))
  have h5 := (hasDerivAt_pow 5 c).const_mul (0.1555786518 : ℝ)
  have h3 := (hasDerivAt_pow 3 c).const_mul (0.325808397 : ℝ)
  have h1 := (hasDerivAt_id c).const_mul (0.9997878412 : ℝ)
  have h := ((h7.add h5).sub h3).add h1
  have e1 : (atanPoly : ℝ → ℝ) = fun y => -(0.0443265555479 : ℝ) * y ^ 7 + 0.1555786518 * y ^ 5
      - 0.325808397 * y ^ 3 + 0.9997878412 * id y := by
    funext y
    simp only [atanPoly, id]
    ring
  have e2 : atanPolyDeriv c = -(0.0443265555479 : ℝ) * ((7 : ℕ) * c ^ (7 - 1))
      + 0.1555786518 * ((5 : ℕ) * c ^ (5 - 1)) - 0.325808397 * ((3 : ℕ) * c ^ (3 - 1))
      + 0.9997878412 * 1 := by
    simp only [atanPolyDeriv]
    norm_num
    ring
  rw [e1, e2]
  exact h

theorem hasDerivAt_atanErr (c : ℝ) :
    HasDerivAt (fun z : ℝ => atanPoly z - Real.arctan z) (atanPolyDeriv c - 1 / (1 + c ^ 2)) c :=
  (hasDerivAt_atanPoly c).sub (Real.hasDerivAt_arctan c)

theorem atanErr_le_A (c : ℝ) (h0 : 0 ≤ c) (h1 : c ≤ 0.95) :
    |atanPoly c - Real.arctan c| ≤ 0.003 * c := by
  have hb : ∀ z ∈ Set.Icc (0 : ℝ) 0.95, ‖atanPolyDeriv z - 1 / (1 + z ^ 2)‖ ≤ 0.003 := by
    intro z hz
    rw [Real.norm_eq_abs]
    apply derivErr_bound
    apply derivErr_poly_A
    · positivity
    · nlinarith [hz.1, hz.2]
  have m := Convex.norm_image_sub_le_of_norm_hasDerivWithin_le
    (fun z _ => (hasDerivAt_atanErr z).hasDerivWithinAt) hb (convex_Icc (0 : ℝ) 0.95)
    (Set.left_mem_Icc.2 (by norm_num)) (Set.mem_Icc.2 ⟨h0, h1⟩)
  simp only [Real.norm_eq_abs, sub_zero, Real.arctan_zero] at m
  have z0 : atanPoly (0 : ℝ) = 0 := by simp [atanPoly]
  rw [z0, sub_zero, abs_of_nonneg h0] at m
  exact m

theorem atanErr_le (c : ℝ) (h0 : 0 ≤ c) (h1 : c ≤ 1) :
    |atanPoly c - Real.arctan c| ≤ 0.0034 := by
  rcases le_total c 0.95 with h | h
  · have := atanErr_le_A c h0 h
    linarith
  · have hb : ∀ z ∈ Set.Icc (0.95 : ℝ) 1, ‖atanPolyDeriv z - 1 / (1 + z ^ 2)‖ ≤ 0.0101 := by
      intro z hz
      rw [Real.norm_eq_abs]
      apply derivErr_bound
      apply derivErr_poly_B
      · nlinarith [hz.1, hz.2]
      · nlinarith [hz.1, hz.2]
    have m := Convex.norm_image_sub_le_of_norm_hasDerivWithin_le
      (fun z _ => (hasDerivAt_atanErr z).hasDerivWithinAt) hb (convex_Icc (0.95 : ℝ) 1)
      (Set.left_mem_Icc.2 (by norm_num)) (Set.mem_Icc.2 ⟨h, h1⟩)
    simp only [Real.norm_eq_abs] at m
    have a := atanErr_le_A 0.95 (by norm_num) le_rfl
    have t := abs_sub_abs_le_abs_sub (atanPoly c - Real.arctan c)
      (atanPoly (0.95 : ℝ) - Real.arctan 0.95)
    rw [abs_of_nonneg (sub_nonneg.2 h)] at m
    nlinarith

theorem arctan_sub_le (u v : ℝ) : |Real.arctan u - Real.arctan v| ≤ |u - v| := by
  have hb : ∀ z ∈ (Set.univ : Set ℝ), ‖1 / (1 + z ^ 2)‖ ≤ 1 := by
    intro z _
    have hp : (0 : ℝ) < 1 + z ^ 2 := by positivity
    rw [Real.norm_eq_abs, abs_of_pos (by positivity), div_le_one hp]
    nlinarith [sq_nonneg z]
  have m := Convex.norm_image_sub_le_of_norm_hasDerivWithin_le
    (fun z _ => (Real.hasDerivAt_arctan z).hasDerivWithinAt) hb convex_univ
    (Set.mem_univ v) (Set.mem_univ u)
  simpa only [Real.norm_eq_abs, one_mul] using m

theorem ratio_gap (a b : ℝ) (ha : 0 ≤ a) (hab : a ≤ b) (hb : 1000 * FLT_MIN ≤ b) :
    |a / (b + FLT_MIN) - a / b| ≤ 0.001 := by
  have hε : (0 : ℝ) < FLT_MIN := FLT_MIN_pos
  have hb0 : 0 < b := by linarith
  have hd : 0 < b + FLT_MIN := by linarith
  have e : a / (b + FLT_MIN) - a / b = -(a * FLT_MIN / (b * (b + FLT_MIN))) := by
    field_simp
    ring
  rw [e, abs_neg, abs_of_nonneg (by positivity), div_le_iff₀ (by positivity)]
  nlinarith [mul_nonneg ha hε.le, mul_nonneg (sub_nonneg.2 hab) hε.le, mul_pos hb0 hb0,
    mul_nonneg hb0.le (sub_nonneg.2 hb)]

theorem PI_sub_pi : |(PI : ℝ) * 0.5 - Real.pi / 2| ≤ 0.0000001 := by
  have hP : (PI : ℝ) = 3.1415927 := rfl
  have h1 := Real.pi_gt_d20
  have h2 := Real.pi_lt_d20
  rw [hP, abs_le]
  constructor <;> norm_num at h1 h2 ⊢ <;> linarith

theorem baseAngle_err (y x : ℝ) (hx : 0 < x) (hm : 1000 * FLT_MIN ≤ max |x| |y|) :
    |baseAngle y x - Real.arctan (|y| / x)| ≤ 0.0045 := by
  have hε : (0 : ℝ) < FLT_MIN := FLT_MIN_pos
  have hax : |x| = x := abs_of_pos hx
  unfold baseAngle
  rw [hax]
  by_cases h : x ≥ |y|
  · rw [if_pos h]
    have hmx : 1000 * FLT_MIN ≤ x := by
      rw [hax, max_eq_left h] at hm
      exact hm
    have r := ratio_bounds |y| x (abs_nonneg y) h
    have e1 := atanErr_le _ r.1 r.2.le
    have e2 := arctan_sub_le (|y| / (x + FLT_MIN)) (|y| / x)
    have e3 := ratio_gap |y| x (abs_nonneg y) h hmx
    have t := abs_sub_le (atanPoly (|y| / (x + FLT_MIN))) (Real.arctan (|y| / (x + FLT_MIN)))
      (Real.arctan (|y| / x))
    linarith
  · rw [if_neg h]
    have h' : x ≤ |y| := (not_le.1 h).le
    have hy0 : 0 < |y| := lt_of_lt_of_le hx h'
    have hmy : 1000 * FLT_MIN ≤ |y| := by
      rw [hax, max_eq_right h'] at hm
      exact hm
    have r := ratio_bounds x |y| hx.le h'
    have e1 := atanErr_le _ r.1 r.2.le
    have e2 := arctan_sub_le (x / (|y| + FLT_MIN)) (x / |y|)
    have e3 := ratio_gap x |y| hx.le h' hmy
    have e4 := PI_sub_pi
    have inv : Real.arctan (|y| / x) = Real.pi / 2 - Real.arctan (x / |y|) := by
      rw [← Real.arctan_inv_of_pos (div_pos hx hy0), inv_div]
    rw [inv]
    have e5 := le_trans e2 e3
    rw [abs_le] at e1 e4 e5 ⊢
    constructor <;> linarith [e1.1, e1.2, e4.1, e4.2, e5.1, e5.2]

theorem arg_eq_arctan_of_pos (y x : ℝ) (hx : 0 < x) :
    Complex.arg (⟨x, y⟩ : ℂ) = Real.arctan (y / x) := by
  have h0 : (0 : ℝ) ≤ (⟨x, y⟩ : ℂ).re := hx.le
  rw [Complex.arg_of_re_nonneg h0, Real.arctan_eq_arcsin]
  congr 1
  have hs : (0 : ℝ) < x ^ 2 + y ^ 2 := by positivity
  have e1 : Complex.abs (⟨x, y⟩ : ℂ) = Real.sqrt (x ^ 2 + y ^ 2) := by
    rw [Complex.abs_apply, Complex.normSq_mk]
    congr 1
    ring
  have e2 : Real.sqrt (1 + (y / x) ^ 2) = Real.sqrt (x ^ 2 + y ^ 2) / x := by
    rw [show 1 + (y / x) ^ 2 = (x ^ 2 + y ^ 2) / x ^ 2 by field_simp, Real.sqrt_div hs.le,
      Real.sqrt_sq hx.le]
  rw [e1, e2]
  have hq : 0 < Real.sqrt (x ^ 2 + y ^ 2) := Real.sqrt_pos.2 hs
  field_simp

/-- C3, as stated, fails for inputs as small as `FLT_MIN`: at
`x = y = FLT_MIN` the ratio is `1/2` instead of 1 and the result is more
than 0.3 away from `atan2(y, x)`, the argument of `x + iy`, which is
`arctan(y / x) = pi/4`. -/
theorem fastAtan2_inaccurate_near_FLT_MIN :
    (0 : ℝ) < FLT_MIN ∧ fastAtan2 (FLT_MIN : ℝ) FLT_MIN = atanPoly (1 / 2) ∧
      Complex.arg (⟨FLT_MIN, FLT_MIN⟩ : ℂ) = Real.arctan ((FLT_MIN : ℝ) / FLT_MIN) ∧
      Real.arctan ((FLT_MIN : ℝ) / FLT_MIN) = Real.pi / 4 ∧
      0.3 < |fastAtan2 (FLT_MIN : ℝ) FLT_MIN - Real.arctan ((FLT_MIN : ℝ) / FLT_MIN)| := by
  have hε : (0 : ℝ) < FLT_MIN := FLT_MIN_pos
  have h1 : fastAtan2 (FLT_MIN : ℝ) FLT_MIN = atanPoly (1 / 2) := by
    have hn : ¬ (FLT_MIN : ℝ) < 0 := not_lt.2 hε.le
    have hc : (FLT_MIN : ℝ) / (FLT_MIN + FLT_MIN) = 1 / 2 := by
      field_simp
      ring
    rw [fastAtan2_eq_baseAngle, if_neg hn, if_neg hn, baseAngle, if_pos le_rfl,
      abs_of_pos hε, hc]
  have h2 : Real.arctan ((FLT_MIN : ℝ) / FLT_MIN) = Real.pi / 4 := by
    rw [div_self hε.ne', Real.arctan_one]
  refine ⟨hε, h1, arg_eq_arctan_of_pos _ _ hε, h2, ?_⟩
  rw [h1, h2]
  have hv : atanPoly (1 / 2 : ℝ) < 0.47 := by
    norm_num [atanPoly]
  have hpi := Real.pi_gt_d2
  rw [abs_sub_comm, abs_of_nonneg (by linarith)]
  linarith

/-- C3, amended: in exact arithmetic, for every `(x, y)` with `x > 0` whose
larger magnitude is at least `1000 * FLT_MIN`, `fastAtan2(y, x)` differs
from `atan2(y, x)`, the argument of `x + iy`, which is `arctan(y / x)`, by at
most 0.01 rad. -/
theorem fastAtan2_accuracy (y x : ℝ) (hx : 0 < x) (hm : 1000 * FLT_MIN ≤ max |x| |y|) :
    |fastAtan2 y x - Complex.arg (⟨x, y⟩ : ℂ)| ≤ 0.01 ∧
      Complex.arg (⟨x, y⟩ : ℂ) = Real.arctan (y / x) := by
  refine ⟨?_, arg_eq_arctan_of_pos y x hx⟩
  rw [arg_eq_arctan_of_pos y x hx]
  have b := baseAngle_err y x hx hm
  have hnx : ¬ x < 0 := not_lt.2 hx.le
  rw [fastAtan2_eq_baseAngle, if_neg hnx]
  by_cases hy : y < 0
  · rw [if_pos hy]
    have e : y / x = -(|y| / x) := by
      rw [abs_of_neg hy, neg_div, neg_neg]
    rw [e, Real.arctan_neg, ← neg_sub', abs_neg]
    linarith
  · have e : y / x = |y| / x := by
      rw [abs_of_nonneg (not_lt.1 hy)]
    rw [if_neg hy, e]
    linarith

theorem fastAtan2_accuracy_witness :
    (0 : ℝ) < 1 ∧ 1000 * FLT_MIN ≤ max |(1 : ℝ)| |(1 : ℝ)| ∧
      |fastAtan2 (1 : ℝ) 1 - Complex.arg (⟨1, 1⟩ : ℂ)| ≤ 0.01 :=
  ⟨one_pos, by norm_num [FLT_MIN], (fastAtan2_accuracy 1 1 one_pos (by norm_num [FLT_MIN])).1⟩

/-! ## Section 17: the masks: footprint, symmetries and brightness offset -/

theorem weightedSum_congr_footprint (w P Q : Nat → Nat → Int)
    (hw : ∀ r c, inFootprint r c = false → w r c = 0)
    (h : ∀ r, r < 7 → ∀ c, c < 7 → inFootprint r c = true → P r c = Q r c) :
    weightedSum w P = weightedSum w Q := by
  unfold weightedSum
  refine Finset.sum_congr rfl fun r hr => Finset.sum_congr rfl fun c hc => ?_
  cases hf : inFootprint r c
  · rw [hw r c hf, zero_mul, zero_mul]
  · rw [h r (Finset.mem_range.1 hr) c (Finset.mem_range.1 hc) hf]

theorem xWeight_off_footprint (r c : Nat) (h : inFootprint r c = false) : xWeight r c = 0 := by
  simp [xWeight, h]

theorem yWeight_off_footprint (r c : Nat) (h : inFootprint r c = false) : yWeight r c = 0 := by
  simp [yWeight, h]

theorem sums_mirror (P : Nat → Nat → Int) :
    xSum (fun r c => P r (6 - c)) = -xSum P ∧ ySum (fun r c => P r (6 - c)) = ySum P ∧
      xSum (fun r c => P (6 - r) c) = xSum P ∧ ySum (fun r c => P (6 - r) c) = -ySum P := by
  simp only [xSum_expand, ySum_expand]
  norm_num
  refine ⟨?_, ?_, ?_, ?_⟩ <;> ring

theorem sums_offset (P : Nat → Nat → Int) (k : Int) :
    xSum (fun r c => P r c + k) = xSum P ∧ ySum (fun r c => P r c + k) = ySum P := by
  simp only [xSum_expand, ySum_expand]
  constructor <;> ring

/-- C13: the result of `featureAngle` depends only on the 37 footprint
samples: two buffers that agree on the footprint positions of the window
(whatever they hold at the 12 corners and at the eighth byte of each row),
with the same centre and stride, give the same two sums and the same
angle. -/
theorem featureAngle_depends_on_footprint {α : Type} [LinearOrderedField α]
    (image image2 : Image) (px py step : Int) (h : RowsInBounds image px py step)
    (h2 : RowsInBounds image2 px py step)
    (hfp : ∀ r, r < 7 → ∀ c, c < 7 → inFootprint r c = true →
      pixel image px py step r c = pixel image2 px py step r c) :
    featureAngleSums image px py step = featureAngleSums image2 px py step ∧
      (featureAngle image px py step : Option α) = featureAngle image2 px py step ∧
      ((Finset.range 7 ×ˢ Finset.range 7).filter fun p => inFootprint p.1 p.2 = false).card
        = 12 := by
  have e : featureAngleSums image px py step = featureAngleSums image2 px py step := by
    rw [featureAngleSums_eq image px py step h, featureAngleSums_eq image2 px py step h2]
    unfold xSum ySum
    rw [weightedSum_congr_footprint xWeight _ _ xWeight_off_footprint hfp,
      weightedSum_congr_footprint yWeight _ _ yWeight_off_footprint hfp]
  refine ⟨e, ?_, by decide⟩
  unfold featureAngle
  rw [e]

theorem featureAngle_depends_on_footprint_witness :
    RowsInBounds sampleImage 3 3 8 ∧ RowsInBounds sampleImageCorners 3 3 8 ∧
      sampleImage ≠ sampleImageCorners ∧
      featureAngleSums sampleImage 3 3 8 = featureAngleSums sampleImageCorners 3 3 8 ∧
      (featureAngle sampleImage 3 3 8 : Option ℚ) = featureAngle sampleImageCorners 3 3 8 :=
  ⟨by decide, by decide, by decide,
    (@featureAngle_depends_on_footprint ℚ _ sampleImage sampleImageCorners 3 3 8 (by decide)
      (by decide) (by decide)).1,
    (@featureAngle_depends_on_footprint ℚ _ sampleImage sampleImageCorners 3 3 8 (by decide)
      (by decide) (by decide)).2.1⟩

/-- C14: the x mask is antisymmetric from left to right and symmetric from
top to bottom, the y mask the other way round; hence a window that is the
left-right mirror `M(r, c) = P(r, 6-c)` of another has `x_sum(M) = -x_sum(P)`
and `y_sum(M) = y_sum(P)`, and one that is the top-bottom mirror
`N(r, c) = P(6-r, c)` has `x_sum(N) = x_sum(P)` and `y_sum(N) = -y_sum(P)`. -/
theorem mirrored_patch_sums (image : Image) (px py step : Int)
    (h : RowsInBounds image px py step) (image2 : Image) (px2 py2 step2 : Int)
    (h2 : RowsInBounds image2 px2 py2 step2) :
    (∀ r, r < 7 → ∀ c, c < 7 →
        xWeight r (6 - c) = -xWeight r c ∧ xWeight (6 - r) c = xWeight r c ∧
          yWeight (6 - r) c = -yWeight r c ∧ yWeight r (6 - c) = yWeight r c) ∧
    featureAngleSums image px py step =
      some (xSum (pixel image px py step), ySum (pixel image px py step)) ∧
    ((∀ r, r < 7 → ∀ c, c < 7 →
        pixel image2 px2 py2 step2 r c = pixel image px py step r (6 - c)) →
      featureAngleSums image2 px2 py2 step2 =
        some (-xSum (pixel image px py step), ySum (pixel image px py step))) ∧
    ((∀ r, r < 7 → ∀ c, c < 7 →
        pixel image2 px2 py2 step2 r c = pixel image px py step (6 - r) c) →
      featureAngleSums image2 px2 py2 step2 =
        some (xSum (pixel image px py step), -ySum (pixel image px py step))) := by
  refine ⟨by decide, featureAngleSums_eq image px py step h, ?_, ?_⟩
  · intro hq
    rw [featureAngleSums_eq image2 px2 py2 step2 h2, xSum_congr _ _ hq, ySum_congr _ _ hq,
      (sums_mirror (pixel image px py step)).1, (sums_mirror (pixel image px py step)).2.1]
  · intro hq
    rw [featureAngleSums_eq image2 px2 py2 step2 h2, xSum_congr _ _ hq, ySum_congr _ _ hq,
      (sums_mirror (pixel image px py step)).2.2.1, (sums_mirror (pixel image px py step)).2.2.2]

theorem mirrored_patch_sums_witness :
    RowsInBounds sampleImage 3 3 8 ∧ RowsInBounds sampleImageMirror 3 3 8 ∧
      (∀ r, r < 7 → ∀ c, c < 7 →
        pixel sampleImageMirror 3 3 8 r c = pixel sampleImage 3 3 8 r (6 - c)) ∧
      featureAngleSums sampleImageMirror 3 3 8 =
        some (-xSum (pixel sampleImage 3 3 8), ySum (pixel sampleImage 3 3 8)) :=
  ⟨by decide, by decide, by decide,
    (mirrored_patch_sums sampleImage 3 3 8 (by decide) sampleImageMirror 3 3 8
      (by decide)).2.2.1 (by decide)⟩

/-- C19: the gradient is invariant under a uniform brightness offset: if
the window of a second buffer is the window `P` of a first one with the same
integer `k` added to all 49 samples (both being buffers of bytes, every
`P(r,c) + k` is within 0..255), the two sums are the same and `featureAngle`
returns the same angle. -/
theorem brightness_offset_invariant {α : Type} [LinearOrderedField α]
    (image : Image) (px py step : Int) (h : RowsInBounds image px py step)
    (image2 : Image) (px2 py2 step2 : Int) (h2 : RowsInBounds image2 px2 py2 step2) (k : Int)
    (hk : ∀ r, r < 7 → ∀ c, c < 7 →
      pixel image2 px2 py2 step2 r c = pixel image px py step r c + k) :
    featureAngleSums image2 px2 py2 step2 = featureAngleSums image px py step ∧
      (featureAngle image2 px2 py2 step2 : Option α) = featureAngle image px py step ∧
      ∀ r c, 0 ≤ pixel image2 px2 py2 step2 r c ∧ pixel image2 px2 py2 step2 r c ≤ 255 := by
  have e : featureAngleSums image2 px2 py2 step2 = featureAngleSums image px py step := by
    rw [featureAngleSums_eq image px py step h, featureAngleSums_eq image2 px2 py2 step2 h2,
      xSum_congr _ _ hk, ySum_congr _ _ hk, (sums_offset (pixel image px py step) k).1,
      (sums_offset (pixel image px py step) k).2]
  refine ⟨e, ?_, fun r c => pixel_bounds image2 px2 py2 step2 r c⟩
  unfold featureAngle
  rw [e]

theorem brightness_offset_invariant_witness :
    RowsInBounds rampImage 3 3 8 ∧ RowsInBounds rampBrighterImage 3 3 8 ∧
      (∀ r, r < 7 → ∀ c, c < 7 →
        pixel rampBrighterImage 3 3 8 r c = pixel rampImage 3 3 8 r c + 15) ∧
      featureAngleSums rampBrighterImage 3 3 8 = featureAngleSums rampImage 3 3 8 ∧
      (featureAngle rampBrighterImage 3 3 8 : Option ℚ) = featureAngle rampImage 3 3 8 :=
  ⟨by decide, by decide, by decide,
    (@brightness_offset_invariant ℚ _ rampImage 3 3 8 (by decide) rampBrighterImage 3 3 8
      (by decide) 15 (by decide)).1,
    (@brightness_offset_invariant ℚ _ rampImage 3 3 8 (by decide) rampBrighterImage 3 3 8
      (by decide) 15 (by decide)).2.1⟩

/-- C16: the horizontal reduction of `featureAngle` is a full lane sum: for
every register `v`, the sequence `add(v, shuffle_epi32(v, 78))`,
`hadd_epi16`, `add(., shufflelo_epi16(., 225))`, followed by taking the low
16 bits as a signed integer, yields the sum of the eight lanes of `v` modulo
`2^16`. -/
theorem horizontal_reduction_is_lane_sum (v : M128i) :
    toInt16 (_mm_cvtsi128_si32
        (_mm_add_epi16
          (_mm_hadd_epi16 (_mm_add_epi16 v (_mm_shuffle_epi32 v 78))
            (_mm_add_epi16 v (_mm_shuffle_epi32 v 78)))
          (_mm_shufflelo_epi16
            (_mm_hadd_epi16 (_mm_add_epi16 v (_mm_shuffle_epi32 v 78))
              (_mm_add_epi16 v (_mm_shuffle_epi32 v 78))) 225)))
        = hreduce v ∧
      hreduce v = wrap16 (laneSum v) ∧
      hreduce v ≡ laneSum v [ZMOD 2 ^ 16] ∧
      -32768 ≤ hreduce v ∧ hreduce v ≤ 32767 := by
  have e := hreduce_eq v
  refine ⟨rfl, e, ?_, ?_, ?_⟩
  · rw [e, Int.ModEq, wrap16_eq, laneSum]
    norm_num
    omega
  · rw [e, wrap16_eq]
    omega
  · rw [e, wrap16_eq]
    omega

/-! ## Section 18: fastAtan2 never divides by zero -/

theorem divisor_pos {α : Type} [LinearOrderedField α] (y x : α) : 0 < divisor y x := by
  have hε : (0 : α) < FLT_MIN := FLT_MIN_pos
  unfold divisor
  split_ifs
  · linarith [abs_nonneg x]
  · linarith [abs_nonneg y]

theorem divChecked_of_pos {α : Type} [LinearOrderedField α] (a b : α) (hb : 0 < b) :
    divChecked a b = some (a / b) := by
  unfold divChecked
  rw [if_neg hb.ne']

/-- C12: `fastAtan2` is total and never divides by zero: for every pair
`(y, x)`, the zero inputs included, the divisor that is used, `|x| + FLT_MIN`
in the branch `|x| >= |y|` and `|y| + FLT_MIN` otherwise, is strictly
positive, so the run in which a division by zero has no result returns the
value of `fastAtan2`. -/
theorem fastAtan2_never_divides_by_zero {α : Type} [LinearOrderedField α] (y x : α) :
    0 < divisor y x ∧
      (|x| ≥ |y| → divisor y x = |x| + FLT_MIN) ∧
      (¬ |x| ≥ |y| → divisor y x = |y| + FLT_MIN) ∧
      fastAtan2Checked y x = some (fastAtan2 y x) ∧
      fastAtan2Checked (0 : α) 0 = some 0 := by
  have hε : (0 : α) < FLT_MIN := FLT_MIN_pos
  have key : ∀ y x : α, fastAtan2Checked y x = some (fastAtan2 y x) := by
    intro y x
    unfold fastAtan2Checked fastAtan2
    by_cases h : |x| ≥ |y|
    · simp only [h, if_true, divChecked_of_pos _ _ (by linarith [abs_nonneg x] :
        (0 : α) < |x| + FLT_MIN), Option.map_some']
    · simp only [h, if_false, divChecked_of_pos _ _ (by linarith [abs_nonneg y] :
        (0 : α) < |y| + FLT_MIN), Option.map_some']
  refine ⟨divisor_pos y x, fun h => by rw [divisor, if_pos h], fun h => by rw [divisor, if_neg h],
    key y x, ?_⟩
  rw [key, fastAtan2_zero_of_nonneg 0 le_rfl]

/-! ## Section 19: the polynomial is increasing; the base angle -/

theorem atanPolyDeriv_ge (c : ℝ) (h0 : 0 ≤ c) (h1 : c ≤ 1) : 0.48 ≤ atanPolyDeriv c := by
  have t0 : 0 ≤ c ^ 2 := by positivity
  have t1 : c ^ 2 ≤ 1 := by nlinarith
  have u : 0 ≤ 1 - c ^ 2 := by linarith
  have b0 : 0 ≤ (1 - c ^ 2) ^ 3 := by positivity
  have b1 : 0 ≤ c ^ 2 * (1 - c ^ 2) ^ 2 := by positivity
  have b2 : 0 ≤ (c ^ 2) ^ 2 * (1 - c ^ 2) := by positivity
  have b3 : 0 ≤ (c ^ 2) ^ 3 := by positivity
  unfold atanPolyDeriv
  nlinarith [b0, b1, b2, b3]

theorem atanPoly_sub_ge (c d : ℝ) (h0 : 0 ≤ c) (hcd : c ≤ d) (h1 : d ≤ 1) :
    0.48 * (d - c) ≤ atanPoly d - atanPoly c := by
  have hc : ContinuousOn (atanPoly : ℝ → ℝ) (Set.Icc 0 1) := fun z _ =>
    (hasDerivAt_atanPoly z).continuousAt.continuousWithinAt
  have hd : DifferentiableOn ℝ (atanPoly : ℝ → ℝ) (interior (Set.Icc 0 1)) := fun z _ =>
    (hasDerivAt_atanPoly z).differentiableAt.differentiableWithinAt
  have hb : ∀ z ∈ interior (Set.Icc (0 : ℝ) 1), (0.48 : ℝ) ≤ deriv atanPoly z := by
    intro z hz
    rw [(hasDerivAt_atanPoly z).deriv]
    have hz' := interior_subset hz
    exact atanPolyDeriv_ge z hz'.1 hz'.2
  exact (convex_Icc (0 : ℝ) 1).mul_sub_le_image_sub_of_le_deriv hc hd hb c
    ⟨h0, hcd.trans h1⟩ d ⟨h0.trans hcd, h1⟩ hcd

theorem atanPoly_lt (c d : ℝ) (h0 : 0 ≤ c) (hcd : c < d) (h1 : d ≤ 1) :
    atanPoly c < atanPoly d := by
  have := atanPoly_sub_ge c d h0 hcd.le h1
  nlinarith

theorem atanPoly_le_one (c : ℝ) (h0 : 0 ≤ c) (h1 : c ≤ 1) : atanPoly c ≤ 0.7852315404521 := by
  have := atanPoly_sub_ge c 1 h0 h1 le_rfl
  have e : atanPoly (1 : ℝ) = 0.7852315404521 := by
    norm_num [atanPoly]
  rw [e] at this
  nlinarith

theorem baseAngle_abs (y x : ℝ) : baseAngle y x = baseAngle |y| |x| := by
  unfold baseAngle
  rw [abs_abs, abs_abs]

theorem baseAngle_lt (x u v : ℝ) (hx : 0 < x) (hu : 0 ≤ u) (huv : u < v) :
    baseAngle u x < baseAngle v x := by
  have hε : (0 : ℝ) < FLT_MIN := FLT_MIN_pos
  have hP : (PI : ℝ) = 3.1415927 := rfl
  have hv : 0 ≤ v := hu.trans huv.le
  unfold baseAngle
  rw [abs_of_pos hx, abs_of_nonneg hu, abs_of_nonneg hv]
  by_cases h2 : x ≥ v
  · have h1 : x ≥ u := le_trans huv.le h2
    rw [if_pos h1, if_pos h2]
    have r2 := ratio_bounds v x hv h2
    have r1 := ratio_bounds u x hu h1
    exact atanPoly_lt _ _ r1.1 (div_lt_div_of_pos_right huv (by linarith)) r2.2.le
  · rw [if_neg h2]
    have h2' : x ≤ v := (not_le.1 h2).le
    have r2 := ratio_bounds x v hx.le h2'
    have p2 := atanPoly_le_one _ r2.1 r2.2.le
    by_cases h1 : x ≥ u
    · rw [if_pos h1]
      have r1 := ratio_bounds u x hu h1
      have p1 := atanPoly_le_one _ r1.1 r1.2.le
      rw [hP]
      norm_num at p1 p2 ⊢
      linarith
    · rw [if_neg h1]
      have h1' : x ≤ u := (not_le.1 h1).le
      have r1 := ratio_bounds x u hx.le h1'
      have hlt : x / (v + FLT_MIN) < x / (u + FLT_MIN) :=
        div_lt_div_of_pos_left hx (by linarith) (by linarith)
      have := atanPoly_lt _ _ r2.1 hlt r1.2.le
      linarith

/-- C15, as stated, fails at the upper end of the second interval: for
`x = 0` the base angle is `PI * 0.5`, half the constant of the program, which
is larger than `pi/2`. -/
theorem baseAngle_exceeds_half_pi :
    |(1 : ℝ)| > |(0 : ℝ)| ∧ baseAngle (1 : ℝ) 0 = PI * 0.5 ∧
      Real.pi / 2 < baseAngle (1 : ℝ) 0 := by
  have h1 : ¬ |(0 : ℝ)| ≥ |(1 : ℝ)| := by norm_num
  have e : baseAngle (1 : ℝ) 0 = PI * 0.5 := by
    rw [baseAngle, if_neg h1]
    simp [atanPoly]
  have hP : (PI : ℝ) = 3.1415927 := rfl
  have hpi := Real.pi_lt_d20
  refine ⟨by norm_num, e, ?_⟩
  rw [e, hP]
  norm_num at hpi ⊢
  linarith

/-- C15, amended: before the quadrant correction the base angle of
`fastAtan2` is the polynomial at `c = |y| / (|x| + FLT_MIN)`, with
`0 <= c <= 1`, and lies in `[0, pi/4]` whenever `|x| >= |y|`; it is
`PI * 0.5` minus the polynomial at `c = |x| / (|y| + FLT_MIN)`, with
`0 <= c <= 1`, and lies in `[pi/4, PI/2]` whenever `|y| > |x|`, for the
constant `PI` of the program. -/
theorem baseAngle_intervals (y x : ℝ) :
    (fastAtan2 y x =
      if y < 0 then -(if x < 0 then PI - baseAngle y x else baseAngle y x)
      else (if x < 0 then PI - baseAngle y x else baseAngle y x)) ∧
    (|x| ≥ |y| →
      baseAngle y x = atanPoly (|y| / (|x| + FLT_MIN)) ∧
        0 ≤ |y| / (|x| + FLT_MIN) ∧ |y| / (|x| + FLT_MIN) ≤ 1 ∧
        0 ≤ baseAngle y x ∧ baseAngle y x ≤ Real.pi / 4) ∧
    (|y| > |x| →
      baseAngle y x = PI * 0.5 - atanPoly (|x| / (|y| + FLT_MIN)) ∧
        0 ≤ |x| / (|y| + FLT_MIN) ∧ |x| / (|y| + FLT_MIN) ≤ 1 ∧
        Real.pi / 4 ≤ baseAngle y x ∧ baseAngle y x ≤ PI / 2) := by
  have hP : (PI : ℝ) = 3.1415927 := rfl
  have hlo := Real.pi_gt_d4
  have hhi := Real.pi_lt_d4
  refine ⟨rfl, ?_, ?_⟩
  · intro h
    have e : baseAngle y x = atanPoly (|y| / (|x| + FLT_MIN)) := by
      rw [baseAngle, if_pos h]
    have r := ratio_bounds |y| |x| (abs_nonneg y) h
    have p := atanPoly_le_one _ r.1 r.2.le
    have q := atanPoly_bounds _ r.1 r.2.le
    refine ⟨e, r.1, r.2.le, ?_, ?_⟩
    · rw [e]
      linarith [q.1, r.1]
    · rw [e]
      norm_num at p hlo ⊢
      linarith
  · intro h
    have e : baseAngle y x = PI * 0.5 - atanPoly (|x| / (|y| + FLT_MIN)) := by
      rw [baseAngle, if_neg (not_le.2 h)]
    have r := ratio_bounds |x| |y| (abs_nonneg x) h.le
    have p := atanPoly_le_one _ r.1 r.2.le
    have q := atanPoly_bounds _ r.1 r.2.le
    refine ⟨e, r.1, r.2.le, ?_, ?_⟩
    · rw [e, hP]
      norm_num at p hhi ⊢
      linarith
    · rw [e, hP]
      norm_num at q ⊢
      linarith [q.1, r.1]

theorem baseAngle_intervals_witness :
    |(1 : ℝ)| ≥ |(1 : ℝ)| ∧ 0 ≤ baseAngle (1 : ℝ) 1 ∧ baseAngle (1 : ℝ) 1 ≤ Real.pi / 4 :=
  ⟨le_rfl, ((baseAngle_intervals 1 1).2.1 le_rfl).2.2.2.1,
    ((baseAngle_intervals 1 1).2.1 le_rfl).2.2.2.2⟩

/-- C18: for a fixed `x > 0`, `fastAtan2(y, x)` is strictly increasing in
`y`, also across the branch switch at `|y| = |x|`: the polynomial is strictly
increasing on `[0, 1]` and its value at 1 is below `PI/4`. -/
theorem fastAtan2_strictMono_in_y (x : ℝ) (hx : 0 < x) (y1 y2 : ℝ) (h : y1 < y2) :
    fastAtan2 y1 x < fastAtan2 y2 x ∧ StrictMonoOn (atanPoly : ℝ → ℝ) (Set.Icc 0 1) ∧
      atanPoly (1 : ℝ) < PI / 4 := by
  refine ⟨?_, fun c hc d hd hcd => atanPoly_lt c d hc.1 hcd hd.2, ?_⟩
  · have hnx : ¬ x < 0 := not_lt.2 hx.le
    rw [fastAtan2_eq_baseAngle, fastAtan2_eq_baseAngle, if_neg hnx, if_neg hnx]
    have e1 : baseAngle y1 x = baseAngle |y1| x := by
      rw [baseAngle_abs y1 x, baseAngle_abs |y1| x, abs_abs]
    have e2 : baseAngle y2 x = baseAngle |y2| x := by
      rw [baseAngle_abs y2 x, baseAngle_abs |y2| x, abs_abs]
    by_cases h1 : y1 < 0
    · rw [if_pos h1]
      by_cases h2 : y2 < 0
      · rw [if_pos h2, e1, e2, abs_of_neg h1, abs_of_neg h2]
        have := baseAngle_lt x (-y2) (-y1) hx (by linarith) (by linarith)
        linarith
      · rw [if_neg h2]
        have b1 := (baseAngle_bounds y1 x).2.2 h1.ne
        have b2 := (baseAngle_bounds y2 x).1
        linarith
    · have h2 : ¬ y2 < 0 := by
        intro hc
        exact h1 (h.trans hc)
      rw [if_neg h1, if_neg h2]
      exact baseAngle_lt x y1 y2 hx (not_lt.1 h1) h
  · have hP : (PI : ℝ) = 3.1415927 := rfl
    have e : atanPoly (1 : ℝ) = 0.7852315404521 := by
      norm_num [atanPoly]
    rw [e, hP]
    norm_num

theorem fastAtan2_strictMono_in_y_witness :
    (0 : ℝ) < 1 ∧ (1 : ℝ) < 2 ∧ fastAtan2 (1 : ℝ) 1 < fastAtan2 (2 : ℝ) 1 :=
  ⟨one_pos, one_lt_two, (fastAtan2_strictMono_in_y 1 one_pos 1 2 one_lt_two).1⟩

/-! ## Section 20: accuracy in every quadrant -/

theorem arg_eq_arctan_add_pi (y x : ℝ) (hx : x < 0) (hy : 0 ≤ y) :
    Complex.arg (⟨x, y⟩ : ℂ) = Real.pi - Real.arctan (y / -x) := by
  have h1 : (⟨x, y⟩ : ℂ).re < 0 := hx
  have h2 : 0 ≤ (⟨x, y⟩ : ℂ).im := hy
  have h3 : (0 : ℝ) ≤ (-(⟨x, y⟩ : ℂ)).re := by
    simp only [Complex.neg_re]
    linarith
  have e := arg_eq_arctan_of_pos (-y) (-x) (by linarith)
  have n : (-(⟨x, y⟩ : ℂ)) = ⟨-x, -y⟩ := by
    apply Complex.ext <;> simp
  rw [Complex.arg_of_re_neg_of_im_nonneg h1 h2, ← map_neg_eq_map Complex.abs (⟨x, y⟩ : ℂ),
    ← Complex.arg_of_re_nonneg h3, n, e, neg_div, Real.arctan_neg]
  ring

theorem arg_eq_arctan_sub_pi (y x : ℝ) (hx : x < 0) (hy : y < 0) :
    Complex.arg (⟨x, y⟩ : ℂ) = -(Real.pi - Real.arctan (-y / -x)) := by
  have h1 : (⟨x, y⟩ : ℂ).re < 0 := hx
  have h2 : (⟨x, y⟩ : ℂ).im < 0 := hy
  have h3 : (0 : ℝ) ≤ (-(⟨x, y⟩ : ℂ)).re := by
    simp only [Complex.neg_re]
    linarith
  have e := arg_eq_arctan_of_pos (-y) (-x) (by linarith)
  have n : (-(⟨x, y⟩ : ℂ)) = ⟨-x, -y⟩ := by
    apply Complex.ext <;> simp
  rw [Complex.arg_of_re_neg_of_im_neg h1 h2, ← map_neg_eq_map Complex.abs (⟨x, y⟩ : ℂ),
    ← Complex.arg_of_re_nonneg h3, n, e]
  ring

theorem PI_sub_pi_full : |(PI : ℝ) - Real.pi| ≤ 0.0000001 := by
  have hP : (PI : ℝ) = 3.1415927 := rfl
  have h1 := Real.pi_gt_d20
  have h2 := Real.pi_lt_d20
  rw [hP, abs_le]
  constructor <;> norm_num at h1 h2 ⊢ <;> linarith

theorem baseAngle_err_abs (y x : ℝ) (hx : x ≠ 0) (hm : 1000 * FLT_MIN ≤ max |x| |y|) :
    |baseAngle y x - Real.arctan (|y| / |x|)| ≤ 0.0045 := by
  have h := baseAngle_err |y| |x| (abs_pos.2 hx) (by rw [abs_abs, abs_abs]; exact hm)
  rw [abs_abs] at h
  rw [baseAngle_abs y x]
  exact h

/-- The error of `fastAtan2` against `atan2(y, x)`, the argument of `x + iy`,
away from the scale of `FLT_MIN`. -/
theorem fastAtan2_arg_err (y x : ℝ) (hm : 1000 * FLT_MIN ≤ max |x| |y|) :
    |fastAtan2 y x - Complex.arg (⟨x, y⟩ : ℂ)| ≤ 0.0046 := by
  have hε : (0 : ℝ) < FLT_MIN := FLT_MIN_pos
  have hpp := PI_sub_pi_full
  rw [abs_le] at hpp
  rw [fastAtan2_eq_baseAngle]
  rcases lt_trichotomy x 0 with hx | hx | hx
  · have b := baseAngle_err_abs y x hx.ne hm
    rw [abs_of_neg hx, abs_le] at b
    rw [if_pos hx]
    by_cases hy : y < 0
    · rw [if_pos hy, arg_eq_arctan_sub_pi y x hx hy]
      rw [abs_of_neg hy] at b
      rw [abs_le]
      constructor <;> linarith [b.1, b.2, hpp.1, hpp.2]
    · rw [if_neg hy, arg_eq_arctan_add_pi y x hx (not_lt.1 hy)]
      rw [abs_of_nonneg (not_lt.1 hy)] at b
      rw [abs_le]
      constructor <;> linarith [b.1, b.2, hpp.1, hpp.2]
  · subst hx
    have hy0 : y ≠ 0 := by
      intro h0
      rw [h0, abs_zero, max_self] at hm
      linarith
    have hb : baseAngle y 0 = PI * 0.5 := by
      have hn : ¬ |(0 : ℝ)| ≥ |y| := by
        rw [abs_zero]
        exact not_le.2 (abs_pos.2 hy0)
      rw [baseAngle, if_neg hn, abs_zero, zero_div]
      simp [atanPoly]
    have h2 := PI_sub_pi
    rw [abs_le] at h2
    rw [if_neg (lt_irrefl 0), hb]
    by_cases hy : y < 0
    · have ea : Complex.arg (⟨0, y⟩ : ℂ) = -(Real.pi / 2) :=
        Complex.arg_eq_neg_pi_div_two_iff.2 ⟨rfl, hy⟩
      rw [if_pos hy, ea, abs_le]
      constructor <;> linarith [h2.1, h2.2]
    · have hy' : 0 < y := lt_of_le_of_ne (not_lt.1 hy) (Ne.symm hy0)
      have ea : Complex.arg (⟨0, y⟩ : ℂ) = Real.pi / 2 :=
        Complex.arg_eq_pi_div_two_iff.2 ⟨rfl, hy'⟩
      rw [if_neg hy, ea, abs_le]
      constructor <;> linarith [h2.1, h2.2]
  · have b := baseAngle_err_abs y x hx.ne' hm
    rw [abs_of_pos hx, abs_le] at b
    rw [if_neg (not_lt.2 hx.le), arg_eq_arctan_of_pos y x hx]
    by_cases hy : y < 0
    · have e : y / x = -(|y| / x) := by
        rw [abs_of_neg hy, neg_div, neg_neg]
      rw [if_pos hy, e, Real.arctan_neg, abs_le]
      constructor <;> linarith [b.1, b.2]
    · have e : y / x = |y| / x := by
        rw [abs_of_nonneg (not_lt.1 hy)]
      rw [if_neg hy, e, abs_le]
      constructor <;> linarith [b.1, b.2]

theorem FLT_MIN_small : (1000 : ℝ) * FLT_MIN ≤ 1 := by
  unfold FLT_MIN
  rw [mul_one_div, div_le_one (by positivity)]
  norm_num

/-- C17: on the inputs that `featureAngle` can produce the angle is
accurate in every quadrant: for all integers `x_sum`, `y_sum` of magnitude
at most 6630 and not both zero, `fastAtan2(y_sum, x_sum)`, in exact real
arithmetic with the constants of the program, differs from
`atan2(y_sum, x_sum)`, the argument of `x_sum + i y_sum`, by at most
0.005 rad. -/
theorem fastAtan2_accurate_on_sums (x_sum y_sum : Int) (hx : |x_sum| ≤ 6630)
    (hy : |y_sum| ≤ 6630) (hne : x_sum ≠ 0 ∨ y_sum ≠ 0) :
    |fastAtan2 (y_sum : ℝ) (x_sum : ℝ) - Complex.arg (⟨(x_sum : ℝ), (y_sum : ℝ)⟩ : ℂ)|
      ≤ 0.005 := by
  have h1 : (1 : ℝ) ≤ max |(x_sum : ℝ)| |(y_sum : ℝ)| := by
    rcases hne with h | h
    · have : (1 : ℤ) ≤ |x_sum| := Int.one_le_abs h
      exact le_max_of_le_left (by exact_mod_cast this)
    · have : (1 : ℤ) ≤ |y_sum| := Int.one_le_abs h
      exact le_max_of_le_right (by exact_mod_cast this)
  have := fastAtan2_arg_err (y_sum : ℝ) (x_sum : ℝ) (FLT_MIN_small.trans h1)
  linarith

theorem fastAtan2_accurate_on_sums_witness :
    |(-367 : Int)| ≤ 6630 ∧ |(-206 : Int)| ≤ 6630 ∧
      |fastAtan2 ((-206 : Int) : ℝ) ((-367 : Int) : ℝ)
          - Complex.arg (⟨((-367 : Int) : ℝ), ((-206 : Int) : ℝ)⟩ : ℂ)| ≤ 0.005 :=
  ⟨by decide, by decide,
    fastAtan2_accurate_on_sums (-367) (-206) (by decide) (by decide) (Or.inl (by decide))⟩

/-- C11: `fastAtan2` takes the stated values at the quadrant and axis test
points: `fastAtan2(0, 1) = 0` and `fastAtan2(0, 0) = 0` exactly, and, each
within 0.01 rad, `fastAtan2(1, 1)` is `pi/4`, `fastAtan2(1, -1)` is `3pi/4`,
`fastAtan2(-1, -1)` is `-3pi/4`, `fastAtan2(-1, 1)` is `-pi/4` and
`fastAtan2(1, 0)` is `pi/2`. -/
theorem fastAtan2_test_points :
    fastAtan2 (0 : ℝ) 1 = 0 ∧ fastAtan2 (0 : ℝ) 0 = 0 ∧
      |fastAtan2 (1 : ℝ) 1 - Real.pi / 4| ≤ 0.01 ∧
      |fastAtan2 (1 : ℝ) (-1) - 3 * Real.pi / 4| ≤ 0.01 ∧
      |fastAtan2 (-1 : ℝ) (-1) - -(3 * Real.pi / 4)| ≤ 0.01 ∧
      |fastAtan2 (-1 : ℝ) 1 - -(Real.pi / 4)| ≤ 0.01 ∧
      |fastAtan2 (1 : ℝ) 0 - Real.pi / 2| ≤ 0.01 := by
  have hs := FLT_MIN_small
  have m : ∀ a b : ℝ, |a| = 1 ∨ |b| = 1 → 1000 * FLT_MIN ≤ max |a| |b| := by
    intro a b h
    rcases h with h | h
    · exact hs.trans (le_max_of_le_left h.ge)
    · exact hs.trans (le_max_of_le_right h.ge)
  have a1 : Complex.arg (⟨1, 1⟩ : ℂ) = Real.pi / 4 := by
    rw [arg_eq_arctan_of_pos 1 1 one_pos, div_one, Real.arctan_one]
  have a2 : Complex.arg (⟨-1, 1⟩ : ℂ) = 3 * Real.pi / 4 := by
    rw [arg_eq_arctan_add_pi 1 (-1) (by norm_num) (by norm_num), neg_neg, div_one,
      Real.arctan_one]
    ring
  have a3 : Complex.arg (⟨-1, -1⟩ : ℂ) = -(3 * Real.pi / 4) := by
    rw [arg_eq_arctan_sub_pi (-1) (-1) (by norm_num) (by norm_num), neg_neg, div_one,
      Real.arctan_one]
    ring
  have a4 : Complex.arg (⟨1, -1⟩ : ℂ) = -(Real.pi / 4) := by
    rw [arg_eq_arctan_of_pos (-1) 1 one_pos, div_one, Real.arctan_neg, Real.arctan_one]
  have a5 : Complex.arg (⟨0, 1⟩ : ℂ) = Real.pi / 2 :=
    Complex.arg_eq_pi_div_two_iff.2 ⟨rfl, one_pos⟩
  have e1 := fastAtan2_arg_err 1 1 (m 1 1 (Or.inl abs_one))
  have e2 := fastAtan2_arg_err 1 (-1) (m (-1) 1 (Or.inr abs_one))
  have e3 := fastAtan2_arg_err (-1) (-1) (m (-1) (-1) (Or.inl (by rw [abs_neg, abs_one])))
  have e4 := fastAtan2_arg_err (-1) 1 (m 1 (-1) (Or.inl abs_one))
  have e5 := fastAtan2_arg_err 1 0 (m 0 1 (Or.inr abs_one))
  rw [a1] at e1
  rw [a2] at e2
  rw [a3] at e3
  rw [a4] at e4
  rw [a5] at e5
  refine ⟨fastAtan2_zero_of_nonneg 1 zero_le_one, fastAtan2_zero_of_nonneg 0 le_rfl, ?_, ?_, ?_,
    ?_, ?_⟩ <;> linarith

end FeatureAngle
